import Mathlib

/-!
Verification development for the ufmt string-templating library
(src/include/ufmt/ufmt.h).  Strings are modelled as lists of characters;
std::string find/replace/substr become executable functions on List Char.
C library calls (snprintf, std::stod) are modelled as explicit function
parameters bundled in a CStdLib structure, with the 256-byte snprintf
buffer cap made explicit.  The thread/context state (shared_context,
context_manager, the static main_thread_id_ and the static thread_local
thread_variables_) is modelled as an explicit state machine.
-/

namespace Ufmt

/-- Strings of the C++ source are modelled as lists of characters. -/
abbrev Str := List Char

/-- The opening brace character. -/
def lb : Char := '{'

/-- The closing brace character. -/
def rb : Char := '}'

/-- The colon character separating a placeholder name from its format spec. -/
def colon : Char := ':'

/-- Model of C isdigit restricted to the decimal digits, as used by the source. -/
def isDigitC (c : Char) : Bool := 48 ≤ c.toNat && c.toNat ≤ 57

/-- Model of C isspace (the six standard whitespace characters). -/
def isSpaceC (c : Char) : Bool := c.toNat = 32 || (9 ≤ c.toNat && c.toNat ≤ 13)

/-- Helper for strFind: position of the first occurrence of pat in s, if any.
Intended for nonempty patterns (on an empty string it returns none). -/
def findAux (pat : Str) : Str → Option Nat
  | [] => none
  | c :: t => if pat.isPrefixOf (c :: t) then some 0 else (findAux pat t).map (· + 1)

/-- Model of std::string::find(pat, i): first occurrence of pat at a position
at or after i.  All patterns used by the source are nonempty. -/
def strFind (pat s : Str) (i : Nat) : Option Nat :=
  (findAux pat (s.drop i)).map (· + i)

/-- Model of std::string::substr(a, b - a): the characters at indices in
the half-open interval from a to b. -/
def substrE (s : Str) (a b : Nat) : Str := (s.take b).drop a

theorem isPrefixOf_iff {p l : Str} : p.isPrefixOf l = true ↔ p <+: l := by
  exact List.isPrefixOf_iff_prefix

theorem singleton_prefix_iff {c : Char} {l : Str} : [c] <+: l ↔ l.head? = some c := by
  constructor
  · rintro ⟨t, rfl⟩; rfl
  · intro h
    cases l with
    | nil => simp at h
    | cons a t =>
      simp only [List.head?_cons, Option.some.injEq] at h
      exact ⟨t, by simp [h]⟩

theorem findAux_eq_some {pat s : Str} {j : Nat} (h : findAux pat s = some j) :
    pat <+: s.drop j ∧ ∀ k, k < j → ¬ pat <+: s.drop k := by
  induction s generalizing j with
  | nil => simp [findAux] at h
  | cons c t ih =>
    by_cases hp : pat.isPrefixOf (c :: t)
    · simp [findAux, hp] at h
      subst h
      exact ⟨isPrefixOf_iff.mp hp, fun k hk => absurd hk (Nat.not_lt_zero k)⟩
    · simp [findAux, hp] at h
      obtain ⟨j0, hj0, rfl⟩ := h
      obtain ⟨h1, h2⟩ := ih hj0
      constructor
      · simpa using h1
      · intro k hk
        cases k with
        | zero =>
          intro hc
          exact hp (isPrefixOf_iff.mpr hc)
        | succ k0 =>
          simpa using h2 k0 (by omega)

theorem findAux_eq_none {pat s : Str} (hp : pat ≠ []) (h : findAux pat s = none) :
    ∀ k, ¬ pat <+: s.drop k := by
  induction s with
  | nil =>
    intro k hc
    simp only [List.drop_nil] at hc
    exact hp (List.prefix_nil.mp hc)
  | cons c t ih =>
    by_cases hpre : pat.isPrefixOf (c :: t)
    · simp [findAux, hpre] at h
    · simp [findAux, hpre] at h
      intro k
      cases k with
      | zero =>
        intro hc
        exact hpre (isPrefixOf_iff.mpr hc)
      | succ k0 =>
        simpa using ih h k0

theorem findAux_of_prefix {pat s : Str} {j : Nat} (hp : pat ≠ [])
    (h1 : pat <+: s.drop j) (h2 : ∀ k, k < j → ¬ pat <+: s.drop k) :
    findAux pat s = some j := by
  induction s generalizing j with
  | nil =>
    simp only [List.drop_nil] at h1
    exact absurd (List.prefix_nil.mp h1) hp
  | cons c t ih =>
    cases j with
    | zero =>
      simp only [List.drop_zero] at h1
      simp [findAux, isPrefixOf_iff.mpr h1]
    | succ j0 =>
      have hnp : ¬ pat.isPrefixOf (c :: t) := by
        intro hc
        exact h2 0 (Nat.succ_pos j0) (by simpa using isPrefixOf_iff.mp hc)
      have := ih (j := j0) (by simpa using h1) (fun k hk => by simpa using h2 (k+1) (by omega))
      simp [findAux, hnp, this]

theorem strFind_eq_some {pat s : Str} {i j : Nat} (h : strFind pat s i = some j) :
    i ≤ j ∧ pat <+: s.drop j ∧ ∀ k, i ≤ k → k < j → ¬ pat <+: s.drop k := by
  simp only [strFind, Option.map_eq_some'] at h
  obtain ⟨j0, hj0, rfl⟩ := h
  obtain ⟨h1, h2⟩ := findAux_eq_some hj0
  refine ⟨by omega, by simpa [Nat.add_comm, List.drop_drop] using h1, ?_⟩
  intro k hik hkj hc
  have := h2 (k - i) (by omega)
  apply this
  have : i + (k - i) = k := by omega
  simpa [List.drop_drop, this] using hc

theorem strFind_eq_none {pat s : Str} {i : Nat} (hp : pat ≠ []) (h : strFind pat s i = none) :
    ∀ k, i ≤ k → ¬ pat <+: s.drop k := by
  simp only [strFind, Option.map_eq_none'] at h
  intro k hik hc
  have := findAux_eq_none hp h (k - i)
  apply this
  have : i + (k - i) = k := by omega
  simpa [List.drop_drop, this] using hc

theorem strFind_of_prefix {pat s : Str} {i j : Nat} (hp : pat ≠ []) (hij : i ≤ j)
    (h1 : pat <+: s.drop j) (h2 : ∀ k, i ≤ k → k < j → ¬ pat <+: s.drop k) :
    strFind pat s i = some j := by
  have : findAux pat (s.drop i) = some (j - i) := by
    apply findAux_of_prefix hp
    · have : i + (j - i) = j := by omega
      simpa [List.drop_drop, this] using h1
    · intro k hk
      have := h2 (i + k) (by omega) (by omega)
      simpa [List.drop_drop] using this
  simp only [strFind, this, Option.map_some']
  congr 1
  omega

theorem strFind_bounds {pat s : Str} {i j : Nat} (hp : pat ≠ []) (h : strFind pat s i = some j) :
    i ≤ j ∧ j + pat.length ≤ s.length ∧ j < s.length := by
  obtain ⟨hij, hpre, _⟩ := strFind_eq_some h
  have hlen : pat.length ≤ (s.drop j).length := hpre.length_le
  simp only [List.length_drop] at hlen
  have hpos : 0 < pat.length := List.length_pos.mpr hp
  exact ⟨hij, by omega, by omega⟩

theorem drop_append_len {a b : Str} {k : Nat} : (a ++ b).drop (a.length + k) = b.drop k := by
  induction a with
  | nil => simp
  | cons c t ih => simp [Nat.succ_add, ih]

theorem drop_append_sub {a b : Str} {j : Nat} (h : a.length ≤ j) :
    (a ++ b).drop j = b.drop (j - a.length) := by
  have hj : j = a.length + (j - a.length) := by omega
  rw [hj, drop_append_len]
  congr 1
  omega

theorem strFind_append {pat a b : Str} {k : Nat} :
    strFind pat (a ++ b) (a.length + k) = (strFind pat b k).map (· + a.length) := by
  simp only [strFind, drop_append_len, Option.map_map]
  cases findAux pat (b.drop k) with
  | none => rfl
  | some j => simp [Function.comp]; omega

/-- If a pattern never occurs with its start inside the first part of a
concatenation, its first occurrence in the concatenation is the first
occurrence in the second part, shifted. -/
theorem strFind_append_of_no_occ {pat a b : Str} (hp : pat ≠ [])
    (hno : ∀ q, q < a.length → ¬ pat <+: (a ++ b).drop q) :
    strFind pat (a ++ b) 0 = (strFind pat b 0).map (· + a.length) := by
  cases hfb : strFind pat b 0 with
  | none =>
    simp only [Option.map_none']
    cases hf : strFind pat (a ++ b) 0 with
    | none => rfl
    | some j =>
      obtain ⟨_, hpre, _⟩ := strFind_eq_some hf
      by_cases hja : j < a.length
      · exact absurd hpre (hno j hja)
      · exfalso
        rw [drop_append_sub (by omega)] at hpre
        exact strFind_eq_none hp hfb (j - a.length) (by omega) hpre
  | some j =>
    obtain ⟨_, hpre, hmin⟩ := strFind_eq_some hfb
    simp only [Option.map_some']
    apply strFind_of_prefix hp (by omega)
    · rw [drop_append_sub (by omega)]
      simpa using hpre
    · intro k _ hk hc
      by_cases hka : k < a.length
      · exact hno k hka hc
      · rw [drop_append_sub (by omega)] at hc
        exact hmin (k - a.length) (by omega) (by omega) hc

theorem strFind_none_of_not_mem {c : Char} {s : Str} {i : Nat} (h : ∀ x ∈ s, x ≠ c) :
    strFind [c] s i = none := by
  cases hf : strFind [c] s i with
  | none => rfl
  | some j =>
    obtain ⟨_, hpre, _⟩ := strFind_eq_some hf
    obtain ⟨t, ht⟩ := hpre
    have hmem : c ∈ s.drop j := by
      rw [← ht]; exact List.mem_append_left _ (by simp)
    exact absurd rfl (h c (List.mem_of_mem_drop hmem))

/-- First occurrence of a single character that heads the suffix after a
character-free prefix. -/
theorem strFind_first_char {c : Char} {a b : Str} (h : ∀ x ∈ a, x ≠ c) :
    strFind [c] (a ++ c :: b) 0 = some a.length := by
  apply strFind_of_prefix (by simp) (Nat.zero_le _)
  · rw [drop_append_sub (by omega)]
    simp [singleton_prefix_iff]
  · intro k _ hk hc
    rw [singleton_prefix_iff] at hc
    rw [List.drop_append_of_le_length (by omega)] at hc
    rw [List.drop_eq_getElem_cons hk] at hc
    simp only [List.cons_append, List.head?_cons, Option.some.injEq] at hc
    exact h _ (List.getElem_mem hk) hc

/-- The decimal digit character for a value below ten. -/
def digitChar10 (d : Nat) : Char := Char.ofNat (48 + d)

/-- Fuel-driven decimal printer (the fuel makes the recursion structural;
it is always called with enough fuel). -/
def decAux : Nat → Nat → Str
  | 0, _ => []
  | fuel + 1, n =>
    if n < 10 then [digitChar10 n]
    else decAux fuel (n / 10) ++ [digitChar10 (n % 10)]

/-- Model of std::to_string on a nonnegative integer: most-significant-first
decimal digits. -/
def decRepr (n : Nat) : Str := decAux (n + 1) n

theorem decAux_fuel_irrel {f1 f2 n : Nat} (h1 : n < f1) (h2 : n < f2) :
    decAux f1 n = decAux f2 n := by
  induction f1 generalizing f2 n with
  | zero => omega
  | succ f1 ih =>
    cases f2 with
    | zero => omega
    | succ f2 =>
      by_cases hn : n < 10
      · simp [decAux, hn]
      · have hd : n / 10 < n := Nat.div_lt_self (by omega) (by omega)
        simp only [decAux, hn, if_false]
        rw [@ih f2 (n / 10) (by omega) (by omega)]

theorem decRepr_eq (n : Nat) :
    decRepr n = if n < 10 then [digitChar10 n] else decRepr (n / 10) ++ [digitChar10 (n % 10)] := by
  by_cases hn : n < 10
  · simp [decRepr, decAux, hn]
  · have hd : n / 10 < n := Nat.div_lt_self (by omega) (by omega)
    simp only [hn, if_false]
    show decAux (n + 1) n = decRepr (n / 10) ++ [digitChar10 (n % 10)]
    conv_lhs => rw [decAux]
    simp only [hn, if_false, decRepr]
    rw [@decAux_fuel_irrel n (n / 10 + 1) (n / 10) (by omega) (by omega)]

theorem decRepr_ne_nil (n : Nat) : decRepr n ≠ [] := by
  rw [decRepr_eq]
  by_cases hn : n < 10 <;> simp [hn]

theorem digitChar10_isDigit {d : Nat} (h : d < 10) : isDigitC (digitChar10 d) = true := by
  interval_cases d <;> decide

theorem digitChar10_inj {d e : Nat} (hd : d < 10) (he : e < 10)
    (h : digitChar10 d = digitChar10 e) : d = e := by
  interval_cases d <;> interval_cases e <;> first | rfl | (exfalso; exact absurd h (by decide))

theorem digitChar10_ne_of_not_digit {d : Nat} (hd : d < 10) {c : Char}
    (hc : isDigitC c = false) : digitChar10 d ≠ c := by
  intro h
  rw [← h] at hc
  rw [digitChar10_isDigit hd] at hc
  simp at hc

theorem decRepr_all_digits (n : Nat) : ∀ c ∈ decRepr n, isDigitC c = true := by
  induction n using Nat.strong_induction_on with
  | _ n ih =>
    rw [decRepr_eq]
    by_cases hn : n < 10
    · simp only [hn, if_true, List.mem_singleton]
      rintro c rfl
      exact digitChar10_isDigit hn
    · simp only [hn, if_false, List.mem_append, List.mem_singleton]
      rintro c (hc | rfl)
      · exact ih (n / 10) (Nat.div_lt_self (by omega) (by omega)) c hc
      · exact digitChar10_isDigit (Nat.mod_lt n (by omega))

theorem decRepr_injective {m n : Nat} (h : decRepr m = decRepr n) : m = n := by
  induction m using Nat.strong_induction_on generalizing n with
  | _ m ih =>
    rw [decRepr_eq m, decRepr_eq n] at h
    by_cases hm : m < 10 <;> by_cases hn : n < 10
    · simp only [hm, hn, if_true, List.cons.injEq] at h
      exact digitChar10_inj hm hn h.1
    · simp only [hm, hn, if_true, if_false] at h
      have := congrArg List.length h
      simp at this
      have := decRepr_ne_nil (n / 10)
      cases hrn : decRepr (n / 10) with
      | nil => exact absurd hrn this
      | cons a t => rw [hrn] at h; simp at h
    · simp only [hm, hn, if_true, if_false] at h
      have := decRepr_ne_nil (m / 10)
      cases hrm : decRepr (m / 10) with
      | nil => exact absurd hrm this
      | cons a t => rw [hrm] at h; simp at h
    · simp only [hm, hn, if_false] at h
      obtain ⟨h1, h2⟩ := List.append_inj' h (by rfl)
      have hq := ih (m / 10) (Nat.div_lt_self (by omega) (by omega)) h1
      have hr : m % 10 = n % 10 := by
        simp only [List.cons.injEq] at h2
        exact digitChar10_inj (Nat.mod_lt m (by omega)) (Nat.mod_lt n (by omega)) h2.1
      omega

theorem decRepr_head_digit (n : Nat) :
    ∃ d t, decRepr n = d :: t ∧ isDigitC d = true := by
  cases h : decRepr n with
  | nil => exact absurd h (decRepr_ne_nil n)
  | cons d t =>
    refine ⟨d, t, rfl, ?_⟩
    exact decRepr_all_digits n d (by rw [h]; simp)

/-- Digit-run boundary: if a digit run followed by a non-digit is a prefix
of another digit run followed by a non-digit, the runs coincide. -/
theorem digit_run_prefix {a b x y : Str} {c d : Char}
    (ha : ∀ e ∈ a, isDigitC e = true) (hb : ∀ e ∈ b, isDigitC e = true)
    (hc : isDigitC c = false) (hd : isDigitC d = false)
    (h : (a ++ c :: x) <+: (b ++ d :: y)) : a = b ∧ c = d ∧ x <+: y := by
  induction a generalizing b with
  | nil =>
    cases b with
    | nil =>
      simp only [List.nil_append, List.cons_prefix_cons] at h
      exact ⟨rfl, h.1, h.2⟩
    | cons e t =>
      simp only [List.nil_append, List.cons_append, List.cons_prefix_cons] at h
      rw [h.1] at hc
      rw [hb e (by simp)] at hc
      simp at hc
  | cons e t ih =>
    cases b with
    | nil =>
      simp only [List.cons_append, List.nil_append, List.cons_prefix_cons] at h
      rw [← h.1] at hd
      rw [ha e (by simp)] at hd
      simp at hd
    | cons f u =>
      simp only [List.cons_append, List.cons_prefix_cons] at h
      obtain ⟨hef, hrest⟩ := h
      obtain ⟨h1, h2, h3⟩ := ih (fun g hg => ha g (by simp [hg])) (fun g hg => hb g (by simp [hg])) hrest
      exact ⟨by rw [hef, h1], h2, h3⟩

/-- The two digit runs built by decRepr, when followed by non-digits inside
prefixes, force equal indices and equal following characters. -/
theorem decRepr_boundary {i j : Nat} {x y : Str} {c d : Char}
    (hc : isDigitC c = false) (hd : isDigitC d = false)
    (h : (decRepr i ++ c :: x) <+: (decRepr j ++ d :: y)) : i = j ∧ c = d ∧ x <+: y := by
  obtain ⟨h1, h2, h3⟩ := digit_run_prefix (decRepr_all_digits i) (decRepr_all_digits j) hc hd h
  exact ⟨decRepr_injective h1, h2, h3⟩

/-- Accumulate the leading decimal digits of a string onto an accumulator. -/
def digitsAcc : Str → Int → Int
  | [], acc => acc
  | c :: t, acc => if isDigitC c then digitsAcc t (acc * 10 + ((c.toNat : Int) - 48)) else acc

/-- Whether the string has at least one leading decimal digit. -/
def hasLeadingDigit : Str → Bool
  | [] => false
  | c :: _ => isDigitC c

/-- Model of C atoi: skip whitespace, optional sign, leading digits; 0 when
no digits.  Overflow is undefined behaviour in C and modelled as exact
integer arithmetic. -/
def atoi (s : Str) : Int :=
  match s.dropWhile isSpaceC with
  | '-' :: t => - digitsAcc t 0
  | '+' :: t => digitsAcc t 0
  | t => digitsAcc t 0

/-- Shared skeleton of std::stoi / std::stoll: skip whitespace, optional
sign, then at least one decimal digit (otherwise the exception, modelled as
none).  Returns the mathematically exact value. -/
def parseIntCxx (s : Str) : Option Int :=
  match s.dropWhile isSpaceC with
  | '-' :: t => if hasLeadingDigit t then some (- digitsAcc t 0) else none
  | '+' :: t => if hasLeadingDigit t then some (digitsAcc t 0) else none
  | t => if hasLeadingDigit t then some (digitsAcc t 0) else none

/-- Model of std::stoi: as parseIntCxx, with the out-of-range exception for
values outside the 32-bit int range modelled as none. -/
def stoiCxx (s : Str) : Option Int :=
  match parseIntCxx s with
  | none => none
  | some v => if v < -(2^31) ∨ 2^31 - 1 < v then none else some v

/-- Model of std::stoll: as parseIntCxx, with the out-of-range exception for
values outside the 64-bit long long range modelled as none. -/
def stollCxx (s : Str) : Option Int :=
  match parseIntCxx s with
  | none => none
  | some v => if v < -(2^63) ∨ 2^63 - 1 < v then none else some v

/-- Fuel-driven binary printer: the digits of n, most significant first,
empty for n = 0 (mirrors the while (uval > 0) loop of
detail::format_integer_value; the fuel makes the recursion structural and
is always sufficient). -/
def binAux : Nat → Nat → Str
  | _, 0 => []
  | 0, _ + 1 => []
  | fuel + 1, n + 1 => binAux fuel ((n + 1) / 2) ++ [if (n + 1) % 2 = 1 then '1' else '0']

/-- Binary digits of n by repeated halving, most significant first. -/
def binStr (n : Nat) : Str := binAux n n

theorem binAux_fuel_irrel {f1 f2 n : Nat} (h1 : n ≤ f1) (h2 : n ≤ f2) :
    binAux f1 n = binAux f2 n := by
  induction f1 generalizing f2 n with
  | zero =>
    interval_cases n
    cases f2 <;> rfl
  | succ f1 ih =>
    cases n with
    | zero => cases f2 <;> rfl
    | succ n0 =>
      cases f2 with
      | zero => omega
      | succ f2 =>
        simp only [binAux]
        rw [@ih f2 ((n0 + 1) / 2) (by omega) (by omega)]

theorem binStr_zero : binStr 0 = [] := rfl

theorem binStr_eq (n : Nat) (hn : n ≠ 0) :
    binStr n = binStr (n / 2) ++ [if n % 2 = 1 then '1' else '0'] := by
  obtain ⟨m, rfl⟩ : ∃ m, n = m + 1 := ⟨n - 1, by omega⟩
  show binAux (m + 1) (m + 1) = binStr ((m + 1) / 2) ++ _
  rw [binAux]
  simp only [binStr]
  rw [@binAux_fuel_irrel m ((m + 1) / 2) ((m + 1) / 2) (by omega) (by omega)]

/-- The numeric value of a most-significant-first binary digit string. -/
def binVal (s : Str) : Nat := s.foldl (fun a c => 2 * a + (if c = '1' then 1 else 0)) 0

theorem binVal_append_digit (s : Str) (c : Char) :
    binVal (s ++ [c]) = 2 * binVal s + (if c = '1' then 1 else 0) := by
  simp [binVal, List.foldl_append]

/-- The repeated-halving loop produces exactly the binary numeral of its
input: it evaluates back to the input, uses only the characters 0 and 1,
and has no leading zero. -/
theorem binStr_correct (n : Nat) :
    binVal (binStr n) = n ∧ (∀ c ∈ binStr n, c = '0' ∨ c = '1') ∧
      (n ≠ 0 → (binStr n).head? = some '1') := by
  induction n using Nat.strong_induction_on with
  | _ n ih =>
    cases hn : n with
    | zero => exact ⟨rfl, by simp [binStr_zero], by simp⟩
    | succ n0 =>
      rw [← hn]
      have hn0 : n ≠ 0 := by omega
      rw [binStr_eq n hn0]
      have hlt : n / 2 < n := Nat.div_lt_self (by omega) (by omega)
      obtain ⟨ihv, ihc, ihh⟩ := ih (n / 2) hlt
      refine ⟨?_, ?_, ?_⟩
      · rw [binVal_append_digit, ihv]
        by_cases h2 : n % 2 = 1
        · simp [h2]; omega
        · simp [h2]; omega
      · intro c hc
        rw [List.mem_append] at hc
        rcases hc with hc | hc
        · exact ihc c hc
        · simp only [List.mem_singleton] at hc
          subst hc
          by_cases h2 : n % 2 = 1 <;> simp [h2]
      · intro _
        by_cases hq : n / 2 = 0
        · have h2 : n % 2 = 1 := by omega
          simp [hq, binStr_zero, h2]
        · have := ihh hq
          cases hb : binStr (n / 2) with
          | nil => rw [hb] at this; simp at this
          | cons d t =>
            rw [hb] at this
            simp only [List.head?_cons, Option.some.injEq] at this
            simp [this]

/-- Spaces, as produced by std::string(n, ' '). -/
def spacesC (n : Nat) : Str := List.replicate n ' '

/-- Zeros, as produced by std::string(n, '0'). -/
def zerosC (n : Nat) : Str := List.replicate n '0'

/-- The truncation step of detail::apply_string_formatting (ufmt.h lines
427-437): truncation applies only when maxLen is positive and the text is
longer; at most three characters means no ellipsis, otherwise the first
maxLen - 3 characters followed by three literal dots. -/
def truncStep (value : Str) (maxLen : Int) : Str :=
  if maxLen > 0 ∧ maxLen < (value.length : Int) then
    if maxLen ≤ 3 then value.take maxLen.toNat
    else value.take (maxLen - 3).toNat ++ ['.', '.', '.']
  else value

/-- The justification step of detail::apply_string_formatting (ufmt.h lines
439-456). -/
def justifyStep (processed : Str) (leftJustified centerJustified : Bool) (width : Int) : Str :=
  if width ≤ 0 ∨ width ≤ (processed.length : Int) then processed
  else
    let padding := width - (processed.length : Int)
    if leftJustified then processed ++ spacesC padding.toNat
    else if centerJustified then
      spacesC (padding / 2).toNat ++ processed ++ spacesC (padding - padding / 2).toNat
    else spacesC padding.toNat ++ processed

/-- Model of detail::apply_string_formatting: parse [alignment][width][.precision]
from the spec, truncate, then justify. -/
def apply_string_formatting (value formatSpec : Str) : Str :=
  if formatSpec = [] then value
  else
    let pos : Nat :=
      match formatSpec with
      | c :: _ => if c = '-' ∨ c = '^' then 1 else 0
      | [] => 0
    let leftJustified : Bool := formatSpec.head? = some '-'
    let centerJustified : Bool := formatSpec.head? = some '^'
    let wm : Int × Int :=
      match strFind ['.'] formatSpec pos with
      | some dotPos =>
          (if dotPos > pos then atoi (substrE formatSpec pos dotPos) else 0,
           atoi (formatSpec.drop (dotPos + 1)))
      | none =>
          (if pos < formatSpec.length then atoi (formatSpec.drop pos) else 0, -1)
    justifyStep (truncStep value wm.2) leftJustified centerJustified wm.1

/-- The C-library and platform services used by the renderer, modelled as
explicit functions: snprintf conversion output (before the 256-byte buffer
cap, which is applied in the model), std::stod parsing, and
std::to_string on doubles.  D is the platform double type, kept abstract
because IEEE formatting is outside the embedding. -/
structure CStdLib (D : Type) where
  stod : Str → Option D
  snprintfF : Str → D → Str
  snprintfI : Str → Int → Str
  toStringD : D → Str

/-- Model of detail::format_double_value: empty spec uses std::to_string,
otherwise snprintf with format "%" ++ spec into a 256-byte buffer (so at
most 255 characters are kept). -/
def format_double_value {D : Type} (lib : CStdLib D) (value : D) (formatSpec : Str) : Str :=
  if formatSpec = [] then lib.toStringD value
  else (lib.snprintfF ('%' :: formatSpec) value).take 255

/-- Model of detail::format_integer_value (ufmt.h lines 331-379): empty spec
uses std::to_string; a spec ending in b or B uses the custom binary
rendering (value cast to unsigned 64-bit, digits by repeated halving, 0b
prefix, optional zero- or space-padding to the requested width); any other
spec goes through snprintf with a 256-byte buffer. -/
def format_integer_value {D : Type} (lib : CStdLib D) (value : Int) (formatSpec : Str) : Str :=
  if formatSpec = [] then
    (if value < 0 then '-' :: decRepr value.natAbs else decRepr value.toNat)
  else if formatSpec.getLast? = some 'b' ∨ formatSpec.getLast? = some 'B' then
    if value = 0 then ['0', 'b', '0']
    else
      let uval : Nat := (value % (2 ^ 64 : Int)).toNat
      let binary : Str := binStr uval
      let widthSpec : Str := formatSpec.take (formatSpec.length - 1)
      if widthSpec ≠ [] then
        match stoiCxx widthSpec with
        | some width =>
          if width > (binary.length : Int) + 2 then
            let padding : Int := width - (binary.length : Int) - 2
            if widthSpec.head? = some '0' then
              '0' :: 'b' :: (zerosC padding.toNat ++ binary)
            else
              spacesC padding.toNat ++ ('0' :: 'b' :: binary)
          else '0' :: 'b' :: binary
        | none => '0' :: 'b' :: binary
      else '0' :: 'b' :: binary
  else (lib.snprintfI ('%' :: formatSpec) value).take 255

/-- The scan of detail::apply_format that looks for the type specifier: the
last character (down to, but not including, index pos) that is neither a
digit nor a dot, together with its index.  The counter starts at the
string length. -/
def scanTypeBack (spec : Str) (pos : Nat) : Nat → Option (Char × Nat)
  | 0 => none
  | i + 1 =>
    if i + 1 ≤ pos then none
    else
      match spec[i]? with
      | some c => if ¬ (isDigitC c = true) ∧ c ≠ '.' then some (c, i) else scanTypeBack spec pos i
      | none => scanTypeBack spec pos i

/-- The float type characters recognised by detail::apply_format. -/
def floatTypeChars : List Char := ['f', 'F', 'g', 'G', 'e', 'E']

/-- The integer type characters recognised by detail::apply_format. -/
def intTypeChars : List Char := ['d', 'i', 'x', 'X', 'o', 'u', 'b', 'B']

/-- Model of detail::apply_format (ufmt.h lines 539-650): type-sniffing
formatting of a string value.  Parses alignment and trailing type
character; float and integer types re-parse the value (std::stod /
std::stoll, exceptions modelled as none) and dispatch to the numeric
renderers, splitting off the alignment + width portion for string
justification when an alignment is present; everything else (including
parse failures) falls through to apply_string_formatting.  The helper
alignPresentB is the alignment test of its first lines; specAlignPos is
the resulting scan start position. -/
def alignPresentB (spec : Str) : Bool :=
  match spec with
  | c :: _ => c = '-' ∨ c = '^'
  | [] => false

/-- The scan start position of detail::apply_format: one past a leading
alignment character. -/
def specAlignPos (spec : Str) : Nat := if alignPresentB spec then 1 else 0

/-- Model of detail::apply_format, continued from the comment above. -/
def apply_format {D : Type} (lib : CStdLib D) (value formatSpec : Str) : Str :=
  if formatSpec = [] then value
  else
    let spec := formatSpec
    let alignment : Str := if alignPresentB spec then spec.take 1 else []
    let pos : Nat := specAlignPos spec
    let scanned := scanTypeBack spec pos spec.length
    let typeSpec : Char :=
      match scanned with
      | some (c, _) => c
      | none => Char.ofNat 0
    let numericPart : Str :=
      match scanned with
      | some (_, i) => substrE spec pos i
      | none => spec.drop pos
    if typeSpec ∈ floatTypeChars then
      match lib.stod value with
      | some d =>
        if alignment ≠ [] then
          let dotPos := strFind ['.'] numericPart 0
          let widthPart : Str :=
            match dotPos with
            | some p => numericPart.take p
            | none => numericPart
          let precisionPart : Str :=
            match dotPos with
            | some p => numericPart.drop p
            | none => []
          let formattedNum := format_double_value lib d (precisionPart ++ [typeSpec])
          apply_string_formatting formattedNum (alignment ++ widthPart)
        else
          format_double_value lib d (numericPart ++ [typeSpec])
      | none => apply_string_formatting value formatSpec
    else if typeSpec ∈ intTypeChars then
      match stollCxx value with
      | some n =>
        if alignment ≠ [] then
          let dotPos := strFind ['.'] numericPart 0
          let widthPart : Str :=
            match dotPos with
            | some p => numericPart.take p
            | none => numericPart
          let precisionPart : Str :=
            match dotPos with
            | some p => numericPart.drop p
            | none => []
          let formattedNum := format_integer_value lib n (precisionPart ++ [typeSpec])
          apply_string_formatting formattedNum (alignment ++ widthPart)
        else
          format_integer_value lib n (numericPart ++ [typeSpec])
      | none => apply_string_formatting value formatSpec
    else apply_string_formatting value formatSpec

/-- One bound argument of format_impl: its default rendering (first) and its
lazy render-with-spec function (second), as built by add_args_to_vector. -/
abbrev Arg := Str × (Str → Str)

/-- The argument pair built for a plain string argument in a context with no
custom formatters: default rendering is the string itself, spec rendering
is detail::format_value on std::string, i.e. apply_string_formatting. -/
def argStr (v : Str) : Arg := (v, fun sp => apply_string_formatting v sp)

/-- The while loop of pass 1 that rewrites spec carrying placeholders: find
pattern (nonempty, head ph); find the next closing brace; render the spec
between them with the argument renderer; splice; continue after the
inserted text.  Mirrors ufmt.h lines 754-772. -/
def specLoop (rend : Str → Str) (ph : Char) (pt : Str) (s : Str) (pos : Nat) : Str :=
  match h1 : strFind (ph :: pt) s pos with
  | none => s
  | some q =>
    match h2 : strFind [rb] s q with
    | none => s
    | some e =>
      let fspec := substrE s (q + (ph :: pt).length) e
      let v := rend fspec
      specLoop rend ph pt (s.take q ++ v ++ s.drop (e + 1)) (q + v.length)
termination_by s.length - pos
decreasing_by
  obtain ⟨hq1, hq2, hq3⟩ := strFind_bounds (by simp) h1
  obtain ⟨he1, he2, he3⟩ := strFind_bounds (by simp) h2
  simp only [List.length_append, List.length_take, List.length_drop]
  omega

/-- The while loop of pass 1 that rewrites bare placeholders: find pattern
(nonempty, head ph), splice in the fixed default rendering, continue after
it.  Mirrors ufmt.h lines 775-780. -/
def simpleLoop (ph : Char) (pt : Str) (v : Str) (s : Str) (pos : Nat) : Str :=
  match h1 : strFind (ph :: pt) s pos with
  | none => s
  | some q => simpleLoop ph pt v (s.take q ++ v ++ s.drop (q + (ph :: pt).length)) (q + v.length)
termination_by s.length - pos
decreasing_by
  obtain ⟨hq1, hq2, hq3⟩ := strFind_bounds (by simp) h1
  have ht : (s.take q).length = q := by simp [List.length_take]; omega
  have hp : (ph :: pt).length = pt.length + 1 := rfl
  simp only [List.length_append, ht, List.length_drop]
  omega

/-- Pass 1 processing of one argument index: first the spec carrying form,
then the bare form, exactly as the body of the for loop over i in
format_impl. -/
def pass1Arg (i : Nat) (a : Arg) (s : Str) : Str :=
  let s1 := specLoop a.2 lb (decRepr i ++ [colon]) s 0
  simpleLoop lb (decRepr i ++ [rb]) a.1 s1 0

/-- Pass 1: for each argument index in ascending order, rewrite its
placeholders. -/
def pass1 (args : List Arg) (s : Str) : Str :=
  args.enum.foldl (fun acc p => pass1Arg p.1 p.2 acc) s

/-- The split of a placeholder content on its first colon into variable
name and format spec, as done by pass 2 (colonPos handling). -/
def splitNameSpec (content : Str) : Str × Str :=
  match strFind [colon] content 0 with
  | some cp => (content.take cp, content.drop (cp + 1))
  | none => (content, [])

/-- The replacement text pass 2 computes for a found variable value: run
the spec through the type-sniffing renderer when a spec is present. -/
def pass2Val {D : Type} (lib : CStdLib D) (value : Str) (content : Str) : Str :=
  if (splitNameSpec content).2 ≠ [] then apply_format lib value (splitNameSpec content).2
  else value

/-- Pass 2 (ufmt.h lines 783-819): scan remaining brace spans; skip empty or
digit-leading content; otherwise split on the first colon, look the name up
in the context (the combined find_var), apply the type-sniffing renderer
when a spec is present, splice, and continue after the inserted text; leave
the span verbatim when the name is unknown. -/
def pass2 {D : Type} (lib : CStdLib D) (fv : Str → Option Str) (s : Str) (pos : Nat) : Str :=
  match h1 : strFind [lb] s pos with
  | none => s
  | some q =>
    match h2 : strFind [rb] s q with
    | none => s
    | some e =>
      match substrE s (q + 1) e with
      | [] => pass2 lib fv s (e + 1)
      | c :: _ =>
        if isDigitC c then pass2 lib fv s (e + 1)
        else
          match fv (splitNameSpec (substrE s (q + 1) e)).1 with
          | some value =>
            pass2 lib fv
              (s.take q ++ pass2Val lib value (substrE s (q + 1) e) ++ s.drop (e + 1))
              (q + (pass2Val lib value (substrE s (q + 1) e)).length)
          | none => pass2 lib fv s (e + 1)
termination_by s.length - pos
decreasing_by
  all_goals obtain ⟨hq1, hq2, hq3⟩ := strFind_bounds (by simp) h1
  all_goals obtain ⟨he1, he2, he3⟩ := strFind_bounds (by simp) h2
  all_goals have ht : (s.take q).length = q := by simp [List.length_take]; omega
  all_goals try simp only [List.length_append, ht, List.length_drop]
  all_goals omega

/-- Model of format_context_base::format_impl: pass 1 (positional) followed
by pass 2 (named), with the context abstracted to its combined find_var
lookup. -/
def formatModel {D : Type} (lib : CStdLib D) (fv : Str → Option Str) (template_str : Str)
    (args : List Arg) : Str :=
  pass2 lib fv (pass1 args template_str) 0

/-- Global state of the context subsystem.  Threads and context instances
are identified by naturals.  Reflecting the source: mainThread models the
static context_base::main_thread_id_ (one per process, not per instance);
gvars models each shared_context instance's mutex-guarded variables_ map;
tvars models the static thread_local shared_context::thread_variables_
(one map per thread, shared by all instances); gforms models each
instance's mutex-guarded formatters_ registry (keyed by a type tag, values
are formatter identifiers); reg and nextCtx model context_manager's
name-to-instance registry with fresh instance creation. -/
structure SysState where
  mainThread : Option Nat
  gvars : Nat → Str → Option Str
  tvars : Nat → Str → Option Str
  gforms : Nat → Nat → Option Nat
  reg : List (Str × Nat)
  nextCtx : Nat

/-- The process state at startup: nothing initialised, no contexts. -/
def initState : SysState :=
  { mainThread := none
    gvars := fun _ _ => none
    tvars := fun _ _ => none
    gforms := fun _ _ => none
    reg := []
    nextCtx := 0 }

/-- Model of context_base::ensure_main_thread_id_initialized: record the
calling thread as the main thread if none is recorded yet. -/
def ensureMain (t : Nat) (st : SysState) : SysState :=
  match st.mainThread with
  | none => { st with mainThread := some t }
  | some _ => st

/-- Model of context_base::is_main_thread: initialise on first use, then
compare the calling thread with the recorded main thread. -/
def isMainThread (t : Nat) (st : SysState) : Bool × SysState :=
  let st1 := ensureMain t st
  (decide (st1.mainThread = some t), st1)

/-- Model of shared_context::set_var called by thread t on instance c: the
main thread writes the instance's guarded map; any other thread writes the
calling thread's thread_variables_ map. -/
def shared_set_var (c t : Nat) (name value : Str) (st : SysState) : SysState :=
  let bs := isMainThread t st
  if bs.1 then
    { bs.2 with gvars := fun c0 n0 => if c0 = c ∧ n0 = name then some value else bs.2.gvars c0 n0 }
  else
    { bs.2 with tvars := fun t0 n0 => if t0 = t ∧ n0 = name then some value else bs.2.tvars t0 n0 }

/-- Model of shared_context::clear_var called by thread t on instance c. -/
def shared_clear_var (c t : Nat) (name : Str) (st : SysState) : SysState :=
  let bs := isMainThread t st
  if bs.1 then
    { bs.2 with gvars := fun c0 n0 => if c0 = c ∧ n0 = name then none else bs.2.gvars c0 n0 }
  else
    { bs.2 with tvars := fun t0 n0 => if t0 = t ∧ n0 = name then none else bs.2.tvars t0 n0 }

/-- Model of shared_context::has_var from thread t on instance c: the
calling thread's thread_variables_ first, then the instance's guarded
map. -/
def shared_has_var (c t : Nat) (name : Str) (st : SysState) : Bool :=
  if (st.tvars t name).isSome then true else (st.gvars c name).isSome

/-- Model of shared_context::find_var (the single-lock combined lookup). -/
def shared_find_var (c t : Nat) (name : Str) (st : SysState) : Option Str :=
  match st.tvars t name with
  | some v => some v
  | none => st.gvars c name

/-- Model of shared_context::set_formatter_impl: always writes the
instance's mutex-guarded formatter registry, from every thread. -/
def shared_set_formatter (c t : Nat) (tag f : Nat) (st : SysState) : SysState :=
  let _ := t
  { st with gforms := fun c0 g0 => if c0 = c ∧ g0 = tag then some f else st.gforms c0 g0 }

/-- Model of shared_context::clear_formatter_impl. -/
def shared_clear_formatter (c t : Nat) (tag : Nat) (st : SysState) : SysState :=
  let _ := t
  { st with gforms := fun c0 g0 => if c0 = c ∧ g0 = tag then none else st.gforms c0 g0 }

/-- Registry lookup by name (first matching entry). -/
def lookupReg (reg : List (Str × Nat)) (name : Str) : Option Nat :=
  match reg.find? (fun p => p.1 = name) with
  | some p => some p.2
  | none => none

/-- Model of context_manager::get_context: look the name up under the
registry lock; on a miss, create a fresh instance, insert it, and return
it. -/
def get_context (name : Str) (st : SysState) : Nat × SysState :=
  match lookupReg st.reg name with
  | some c => (c, st)
  | none =>
      (st.nextCtx,
       { st with reg := (name, st.nextCtx) :: st.reg, nextCtx := st.nextCtx + 1 })

/-- Model of context_manager::remove_context: drop the name from the
registry (existing handles stay alive; instance state is untouched). -/
def remove_context (name : Str) (st : SysState) : SysState :=
  { st with reg := st.reg.filter (fun p => ¬ (p.1 = name)) }

/-- The operations a program can perform against the context subsystem,
each tagged with the instance and the calling thread. -/
inductive COp where
  | setV (c t : Nat) (name value : Str)
  | clearV (c t : Nat) (name : Str)
  | setF (c t tag f : Nat)
  | clearF (c t tag : Nat)
  | getCtx (name : Str)
  | removeCtx (name : Str)

/-- Interpretation of one operation. -/
def stepOp (st : SysState) : COp → SysState
  | .setV c t n v => shared_set_var c t n v st
  | .clearV c t n => shared_clear_var c t n st
  | .setF c t tag f => shared_set_formatter c t tag f st
  | .clearF c t tag => shared_clear_formatter c t tag st
  | .getCtx n => (get_context n st).2
  | .removeCtx n => remove_context n st

/-- Interpretation of a sequence of operations. -/
def runOps (st : SysState) (ops : List COp) : SysState := ops.foldl stepOp st

/-- A trivial instantiation of the platform services, used to evaluate the
model at concrete inputs on paths that never reach snprintf or stod. -/
def libUnit : CStdLib Unit :=
  { stod := fun _ => none
    snprintfF := fun _ _ => []
    snprintfI := fun _ _ => []
    toStringD := fun _ => [] }

/-- C5 counterexample: the string "ab" (length 2) formatted with explicit
precision 0 (spec ".0") is not truncated at all: the truncation step
returns it unchanged (the code requires maxLen strictly positive), so the
result length is 2, not the 0 the claim demands for P = 0. -/
theorem c5_counterexample :
    truncStep ['a', 'b'] 0 = ['a', 'b'] ∧
    ((truncStep ['a', 'b'] 0).length : Int) ≠ 0 ∧
    apply_string_formatting ['a', 'b'] ['.', '0'] = ['a', 'b'] := by
  decide

/-- C5 (amended): for every string value of length L and explicit precision
P with 0 < P < L, the truncation step produces a result of length exactly
P: the first P characters with no ellipsis when P is at most 3, otherwise
the first P - 3 characters followed by three literal dots. -/
theorem c5_truncation (value : Str) (P : Int) (h0 : 0 < P) (hL : P < (value.length : Int)) :
    ((truncStep value P).length : Int) = P ∧
    (P ≤ 3 → truncStep value P = value.take P.toNat) ∧
    (3 < P → truncStep value P = value.take (P - 3).toNat ++ ['.', '.', '.']) := by
  have hcond : P > 0 ∧ P < (value.length : Int) := ⟨h0, hL⟩
  by_cases h3 : P ≤ 3
  · have he : truncStep value P = value.take P.toNat := by
      unfold truncStep
      rw [if_pos hcond, if_pos h3]
    refine ⟨?_, fun _ => he, fun hc => absurd h3 (by omega)⟩
    rw [he, List.length_take]
    omega
  · have he : truncStep value P = value.take (P - 3).toNat ++ ['.', '.', '.'] := by
      unfold truncStep
      rw [if_pos hcond, if_neg h3]
    refine ⟨?_, fun hc => absurd hc h3, fun _ => he⟩
    rw [he, List.length_append, List.length_take]
    simp only [List.length_cons, List.length_nil]
    omega

/-- C5 witness: the amended truncation law evaluated at the string "abcde"
with precision 4. -/
theorem c5_truncation_witness :
    (0 : Int) < 4 ∧ (4 : Int) < ((['a', 'b', 'c', 'd', 'e'] : Str).length : Int) ∧
    ((truncStep ['a', 'b', 'c', 'd', 'e'] 4).length : Int) = 4 := by
  refine ⟨by decide, by decide, ?_⟩
  exact (c5_truncation ['a', 'b', 'c', 'd', 'e'] 4 (by decide) (by decide)).1

/-- C6 (confirmed): for text of length R and width W exceeding R, the
justification step adds exactly W - R spaces: all after the text for left
alignment, all before it for the default right alignment, and floor of
(W-R)/2 before with the remainder after for center alignment; the result
always has length W; and whenever W is at most R (for any alignment) the
text is returned unchanged. -/
theorem c6_justification (text : Str) (W : Int) (hW : (text.length : Int) < W) :
    justifyStep text true false W = text ++ spacesC (W - text.length).toNat ∧
    justifyStep text false false W = spacesC (W - text.length).toNat ++ text ∧
    justifyStep text false true W =
      spacesC ((W - text.length) / 2).toNat ++ text ++
        spacesC (W - text.length - (W - text.length) / 2).toNat ∧
    (∀ l c : Bool, ((justifyStep text l c W).length : Int) = W) ∧
    (∀ (s2 : Str) (W2 : Int) (l c : Bool),
       W2 ≤ (s2.length : Int) → justifyStep s2 l c W2 = s2) := by
  have hnc : ¬ (W ≤ 0 ∨ W ≤ (text.length : Int)) := by
    push_neg
    constructor <;> omega
  refine ⟨?_, ?_, ?_, ?_, ?_⟩
  · unfold justifyStep
    simp [hnc]
  · unfold justifyStep
    simp [hnc]
  · unfold justifyStep
    simp [hnc]
  · intro l c
    unfold justifyStep
    rcases l <;> rcases c <;>
      simp only [hnc, if_false, Bool.true_eq_false, if_true, Bool.false_eq_true,
        List.length_append, spacesC, List.length_replicate] <;>
      push_cast <;> omega
  · intro s2 W2 l c hle
    unfold justifyStep
    have : W2 ≤ 0 ∨ W2 ≤ (s2.length : Int) := Or.inr hle
    simp [this]

/-- C6 witness: the justification law evaluated at the text "hi" and width
5. -/
theorem c6_justification_witness :
    ((['h', 'i'] : Str).length : Int) < 5 ∧
    justifyStep ['h', 'i'] true false 5 = ['h', 'i'] ++ spacesC 3 := by
  refine ⟨by decide, ?_⟩
  have h := (c6_justification ['h', 'i'] 5 (by decide)).1
  simpa using h

/-- C8 counterexample: applying the spec "-4z" (unknown trailing type
character z) to the string value "hi" does not fall back to the default
stringification "hi" with the spec ignored: the width 4 and left alignment
are applied, producing "hi  ". -/
theorem c8_counterexample :
    apply_format libUnit ['h', 'i'] ['-', '4', 'z'] = ['h', 'i', ' ', ' '] ∧
    apply_format libUnit ['h', 'i'] ['-', '4', 'z'] ≠ ['h', 'i'] := by
  constructor
  · rfl
  · decide

/-- C8 (amended): when the scanned trailing type character of a format spec
is none of the recognized float or integer type characters, apply_format
falls back to string formatting of the value with the full spec still
applied (truncation and justification, including the spec's width and
alignment), and never raises (the model is total). -/
theorem c8_unknown_type {D : Type} (lib : CStdLib D) (value spec : Str) (c : Char) (idx : Nat)
    (hscan : scanTypeBack spec (specAlignPos spec) spec.length = some (c, idx))
    (hcf : c ∉ floatTypeChars) (hci : c ∉ intTypeChars) :
    apply_format lib value spec = apply_string_formatting value spec := by
  have hs : spec ≠ [] := by
    intro h
    rw [h] at hscan
    simp [scanTypeBack] at hscan
  unfold apply_format
  simp only [hs, if_false, hscan]
  simp [hcf, hci]

/-- C8 witness: the amended fallback evaluated at value "hi" and spec
"7q". -/
theorem c8_unknown_type_witness :
    scanTypeBack ['7', 'q'] (specAlignPos ['7', 'q']) (['7', 'q'] : Str).length = some ('q', 1) ∧
    apply_format libUnit ['h', 'i'] ['7', 'q'] = apply_string_formatting ['h', 'i'] ['7', 'q'] := by
  refine ⟨by decide, ?_⟩
  exact c8_unknown_type libUnit ['h', 'i'] ['7', 'q'] 'q' 1 (by decide) (by decide) (by decide)

/-- C9 counterexample: the long long value -1 rendered with type character
b is not the binary digits of its magnitude 1 (which would give "0b1"):
the cast to unsigned long long yields two's complement, 64 one bits. -/
theorem c9_counterexample :
    format_integer_value libUnit (-1) ['b'] = '0' :: 'b' :: List.replicate 64 '1' ∧
    format_integer_value libUnit (-1) ['b'] ≠ ['0', 'b', '1'] := by
  constructor
  · rfl
  · decide

/-- C9 (amended): for a long long value rendered with trailing type
character b or B: the value 0 renders as 0b0; otherwise the digits
obtained by repeated halving are the binary numeral of the value cast to
unsigned 64-bit (two's complement; equal to the magnitude exactly when the
value is nonnegative), prefixed with 0b; and when the requested width
exceeds the digit count plus 2, zeros are inserted directly after 0b if
the width spec has a leading 0, otherwise spaces are inserted before 0b,
either way reaching length exactly the width. -/
theorem c9_binary {D : Type} (lib : CStdLib D) (value : Int) (spec : Str)
    (hb : spec.getLast? = some 'b' ∨ spec.getLast? = some 'B')
    (hlo : -(2 ^ 63) ≤ value) (hhi : value < 2 ^ 63) :
    (value = 0 → format_integer_value lib value spec = ['0', 'b', '0']) ∧
    (value ≠ 0 →
      binVal (binStr (value % (2 ^ 64 : Int)).toNat) = (value % (2 ^ 64 : Int)).toNat ∧
      (0 ≤ value → ((value % (2 ^ 64 : Int)).toNat : Int) = value) ∧
      (value < 0 → ((value % (2 ^ 64 : Int)).toNat : Int) = value + 2 ^ 64) ∧
      (∀ c ∈ binStr (value % (2 ^ 64 : Int)).toNat, c = '0' ∨ c = '1') ∧
      (binStr (value % (2 ^ 64 : Int)).toNat).head? = some '1' ∧
      ((spec.take (spec.length - 1) = [] ∨ stoiCxx (spec.take (spec.length - 1)) = none ∨
         (∃ w, stoiCxx (spec.take (spec.length - 1)) = some w ∧
            w ≤ ((binStr (value % (2 ^ 64 : Int)).toNat).length : Int) + 2)) →
        format_integer_value lib value spec =
          '0' :: 'b' :: binStr (value % (2 ^ 64 : Int)).toNat) ∧
      (∀ w, stoiCxx (spec.take (spec.length - 1)) = some w →
         ((binStr (value % (2 ^ 64 : Int)).toNat).length : Int) + 2 < w →
        ((spec.take (spec.length - 1)).head? = some '0' →
          format_integer_value lib value spec =
            '0' :: 'b' :: (zerosC (w - (binStr (value % (2 ^ 64 : Int)).toNat).length - 2).toNat ++
              binStr (value % (2 ^ 64 : Int)).toNat) ∧
          ((format_integer_value lib value spec).length : Int) = w) ∧
        (¬ (spec.take (spec.length - 1)).head? = some '0' →
          format_integer_value lib value spec =
            spacesC (w - (binStr (value % (2 ^ 64 : Int)).toNat).length - 2).toNat ++
              ('0' :: 'b' :: binStr (value % (2 ^ 64 : Int)).toNat) ∧
          ((format_integer_value lib value spec).length : Int) = w))) := by
  have hsne : spec ≠ [] := by
    intro h
    rw [h] at hb
    simp at hb
  constructor
  · intro h0
    unfold format_integer_value
    rw [if_neg hsne, if_pos hb, if_pos h0]
  · intro hnz
    set u : Nat := (value % (2 ^ 64 : Int)).toNat with hu
    have hmod : (0 : Int) ≤ value % (2 ^ 64 : Int) := Int.emod_nonneg value (by norm_num)
    have hmodlt : value % (2 ^ 64 : Int) < 2 ^ 64 := Int.emod_lt_of_pos value (by norm_num)
    have hun : (u : Int) = value % (2 ^ 64 : Int) := by
      rw [hu]
      exact Int.toNat_of_nonneg hmod
    have hnn : 0 ≤ value → ((u : Int)) = value := by
      intro hge
      rw [hun]
      exact Int.emod_eq_of_lt hge (by omega)
    have hneg : value < 0 → ((u : Int)) = value + 2 ^ 64 := by
      intro hlt
      rw [hun]
      omega
    have huz : u ≠ 0 := by
      intro h
      rw [h] at hun
      simp at hun
      omega
    obtain ⟨hv, hc01, hh⟩ := binStr_correct u
    refine ⟨hv, hnn, hneg, hc01, hh huz, ?_, ?_⟩
    · intro hcase
      unfold format_integer_value
      rw [if_neg hsne, if_pos hb, if_neg hnz]
      simp only [← hu]
      rcases hcase with hwe | hno | ⟨w, hw, hle⟩
      · simp [hwe]
      · by_cases hwe : spec.take (spec.length - 1) = []
        · simp [hwe]
        · simp [hwe, hno]
      · by_cases hwe : spec.take (spec.length - 1) = []
        · simp [hwe]
        · rw [if_pos (by simpa using hwe), hw]
          have hng : ¬ (w > ((binStr u).length : Int) + 2) := by omega
          simp [hng]
    · intro w hw hgt
      have hwe : spec.take (spec.length - 1) ≠ [] := by
        intro h
        rw [h] at hw
        simp [stoiCxx, parseIntCxx, hasLeadingDigit] at hw
      constructor
      · intro hzero
        have he : format_integer_value lib value spec =
            '0' :: 'b' :: (zerosC (w - (binStr u).length - 2).toNat ++ binStr u) := by
          unfold format_integer_value
          rw [if_neg hsne, if_pos hb, if_neg hnz]
          simp only [← hu]
          rw [if_pos (by simpa using hwe), hw]
          have hg : w > ((binStr u).length : Int) + 2 := by omega
          simp [hg, hzero]
        refine ⟨he, ?_⟩
        rw [he]
        simp only [List.length_cons, List.length_append, zerosC, List.length_replicate]
        omega
      · intro hzero
        have he : format_integer_value lib value spec =
            spacesC (w - (binStr u).length - 2).toNat ++ ('0' :: 'b' :: binStr u) := by
          unfold format_integer_value
          rw [if_neg hsne, if_pos hb, if_neg hnz]
          simp only [← hu]
          rw [if_pos (by simpa using hwe), hw]
          have hg : w > ((binStr u).length : Int) + 2 := by omega
          simp [hg, hzero]
        refine ⟨he, ?_⟩
        rw [he]
        simp only [List.length_cons, List.length_append, spacesC, List.length_replicate]
        omega

/-- C9 witness: the amended binary law evaluated at value 5 with spec
"08b". -/
theorem c9_binary_witness :
    ((['0', '8', 'b'] : Str).getLast? = some 'b' ∨ (['0', '8', 'b'] : Str).getLast? = some 'B') ∧
    (-(2 ^ 63) : Int) ≤ 5 ∧ (5 : Int) < 2 ^ 63 ∧ (5 : Int) ≠ 0 ∧
    binVal (binStr ((5 : Int) % (2 ^ 64 : Int)).toNat) = ((5 : Int) % (2 ^ 64 : Int)).toNat := by
  refine ⟨by decide, by norm_num, by norm_num, by norm_num, ?_⟩
  exact ((c9_binary libUnit 5 ['0', '8', 'b'] (by decide) (by norm_num) (by norm_num)).2
    (by norm_num)).1

set_option maxRecDepth 4000 in
/-- C10 counterexample: an integer rendered with the numeric type character
b and width 300 (spec "300b", no alignment) produces a replacement of
length 300, far beyond 255: the binary path does not go through the
256-byte snprintf buffer. -/
theorem c10_counterexample :
    (format_integer_value libUnit 1 ['3', '0', '0', 'b']).length = 300 ∧
    ¬ (format_integer_value libUnit 1 ['3', '0', '0', 'b']).length ≤ 255 := by
  constructor
  · rfl
  · intro h
    rw [show (format_integer_value libUnit 1 ['3', '0', '0', 'b']).length = 300 from rfl] at h
    omega

/-- C10 (amended): an integer or floating-point value rendered through a
nonempty spec whose trailing type character is not the custom binary b or
B goes through snprintf with a 256-byte buffer, so the replacement text
has length at most 255, no matter how large a width the spec requests. -/
theorem c10_printf_cap {D : Type} (lib : CStdLib D) (v : Int) (d : D) (ispec fspec : Str)
    (hi : ispec ≠ []) (hbb : ¬ (ispec.getLast? = some 'b' ∨ ispec.getLast? = some 'B'))
    (hf : fspec ≠ []) :
    (format_integer_value lib v ispec).length ≤ 255 ∧
    (format_double_value lib d fspec).length ≤ 255 := by
  constructor
  · unfold format_integer_value
    rw [if_neg hi, if_neg hbb]
    simpa using List.length_take_le 255 _
  · unfold format_double_value
    rw [if_neg hf]
    simpa using List.length_take_le 255 _

/-- C10 witness: the cap evaluated at value 7 with integer spec "300d" and
double spec "300f". -/
theorem c10_printf_cap_witness :
    (['3', '0', '0', 'd'] : Str) ≠ [] ∧
    ¬ ((['3', '0', '0', 'd'] : Str).getLast? = some 'b' ∨
       (['3', '0', '0', 'd'] : Str).getLast? = some 'B') ∧
    (format_integer_value libUnit 7 ['3', '0', '0', 'd']).length ≤ 255 := by
  refine ⟨by decide, by decide, ?_⟩
  exact (c10_printf_cap libUnit 7 () ['3', '0', '0', 'd'] ['3', '0', '0', 'f']
    (by decide) (by decide) (by decide)).1

/-- Every operation preserves an already-recorded main thread. -/
theorem ensureMain_of_some {st : SysState} {m : Nat} (h : st.mainThread = some m) (t : Nat) :
    ensureMain t st = st := by
  unfold ensureMain
  rw [h]

theorem stepOp_mainThread {st : SysState} {m : Nat} (h : st.mainThread = some m) :
    ∀ op, (stepOp st op).mainThread = some m := by
  intro op
  have hens := ensureMain_of_some h
  cases op with
  | setV c t n v =>
    simp only [stepOp, shared_set_var, isMainThread, hens]
    split <;> simpa using h
  | clearV c t n =>
    simp only [stepOp, shared_clear_var, isMainThread, hens]
    split <;> simpa using h
  | setF c t tag f => simpa [stepOp, shared_set_formatter] using h
  | clearF c t tag => simpa [stepOp, shared_clear_formatter] using h
  | getCtx n =>
    simp only [stepOp, get_context]
    split <;> simpa using h
  | removeCtx n => simpa [stepOp, remove_context] using h

/-- Once recorded, the main thread survives any operation sequence. -/
theorem runOps_mainThread {st : SysState} {m : Nat} (h : st.mainThread = some m)
    (ops : List COp) : (runOps st ops).mainThread = some m := by
  induction ops generalizing st with
  | nil => simpa [runOps] using h
  | cons op rest ih =>
    have h1 := stepOp_mainThread h op
    simpa [runOps] using ih h1

/-- C1 counterexample: context instance 0 is first touched by thread 0
(set_var of x), then context instance 1 is first touched by thread 1
(set_var of y).  The claim demands that instance 1's home thread be thread
1, so that write would go to instance 1's guarded global store.  In the
code the home thread is the static, process-wide main_thread_id_, already
fixed to thread 0: thread 1's write lands in its thread-local shadow map
and instance 1's global store stays empty, and both instances report the
same recorded home thread 0, not different ones. -/
theorem c1_counterexample :
    (runOps initState [COp.setV 0 0 ['x'] ['1'], COp.setV 1 1 ['y'] ['2']]).gvars 1 ['y'] = none ∧
    (runOps initState [COp.setV 0 0 ['x'] ['1'], COp.setV 1 1 ['y'] ['2']]).tvars 1 ['y'] =
      some ['2'] ∧
    (runOps initState [COp.setV 0 0 ['x'] ['1'], COp.setV 1 1 ['y'] ['2']]).mainThread = some 0 ∧
    (isMainThread 1 (runOps initState [COp.setV 0 0 ['x'] ['1'], COp.setV 1 1 ['y'] ['2']])).1 =
      false := by
  decide

/-- C1 (amended): the home thread is process-wide, not per instance: the
thread of the first set_var/clear_var through any context instance is
recorded once in the static main_thread_id_ and never changes afterwards,
whatever instances and threads later operations use; every Shared context
shares this single home thread. -/
theorem c1_home_thread (c t : Nat) (n v : Str) (ops : List COp) :
    (runOps initState (COp.setV c t n v :: ops)).mainThread = some t ∧
    (∀ (st : SysState) (m : Nat) (ops2 : List COp),
       st.mainThread = some m → (runOps st ops2).mainThread = some m) := by
  constructor
  · have h1 : (stepOp initState (COp.setV c t n v)).mainThread = some t := by
      simp [stepOp, shared_set_var, isMainThread, ensureMain, initState]
    have : runOps initState (COp.setV c t n v :: ops) =
        runOps (stepOp initState (COp.setV c t n v)) ops := by
      simp [runOps]
    rw [this]
    exact runOps_mainThread h1 ops
  · intro st m ops2 h
    exact runOps_mainThread h ops2

/-- C1 witness: the amended law evaluated at a first write by thread 3 on
instance 7 followed by an operation by thread 4 on instance 9. -/
theorem c1_home_thread_witness :
    (runOps initState [COp.setV 7 3 ['a'] ['1'], COp.setV 9 4 ['b'] ['2']]).mainThread =
      some 3 := by
  exact (c1_home_thread 7 3 ['a'] ['1'] [COp.setV 9 4 ['b'] ['2']]).1

/-- C2 counterexample: after thread 0 becomes the home thread, thread 1
(not the home thread) calls set_formatter on instance 0: the claim demands
the guarded global registry stay unchanged (a per-thread shadow registry
would take the write), but the code writes the guarded global registry
directly, from every thread. -/
theorem c2_counterexample :
    (runOps initState [COp.setV 0 0 ['x'] ['1']]).gforms 0 7 = none ∧
    (runOps initState [COp.setV 0 0 ['x'] ['1'], COp.setF 0 1 7 42]).mainThread = some 0 ∧
    (runOps initState [COp.setV 0 0 ['x'] ['1'], COp.setF 0 1 7 42]).gforms 0 7 = some 42 := by
  decide

/-- C2 (amended): with the home thread recorded as m, set_var/clear_var from
m act on the instance's mutex-guarded global variable store and leave every
thread shadow untouched, while from any other thread they act only on that
thread's shadow store and leave every instance's global store untouched;
set_formatter/clear_formatter, however, always act on the instance's
mutex-guarded global formatter registry, from the home thread and from
every other thread alike (there is no shadow formatter registry). -/
theorem c2_store_routing (st : SysState) (m c t : Nat) (n v : Str) (tag f : Nat)
    (hm : st.mainThread = some m) :
    (t = m →
      (shared_set_var c t n v st).gvars c n = some v ∧
      (shared_set_var c t n v st).tvars = st.tvars ∧
      (shared_clear_var c t n st).gvars c n = none ∧
      (shared_clear_var c t n st).tvars = st.tvars) ∧
    (t ≠ m →
      (shared_set_var c t n v st).tvars t n = some v ∧
      (shared_set_var c t n v st).gvars = st.gvars ∧
      (shared_clear_var c t n st).tvars t n = none ∧
      (shared_clear_var c t n st).gvars = st.gvars) ∧
    ((shared_set_formatter c t tag f st).gforms c tag = some f ∧
      (shared_clear_formatter c t tag st).gforms c tag = none ∧
      (shared_set_formatter c t tag f st).gforms =
        (shared_set_formatter c m tag f st).gforms) := by
  have hens : ensureMain t st = st := by
    unfold ensureMain
    rw [hm]
  refine ⟨?_, ?_, ?_⟩
  · rintro rfl
    have hb : (isMainThread t st).1 = true := by
      simp [isMainThread, hens, hm]
    refine ⟨?_, ?_, ?_, ?_⟩ <;>
      simp [shared_set_var, shared_clear_var, isMainThread, hens, hm]
  · intro hne
    have hb : (isMainThread t st).1 = false := by
      simp only [isMainThread, hens, hm]
      simpa using fun hc : m = t => hne hc.symm
    refine ⟨?_, ?_, ?_, ?_⟩ <;>
      simp [shared_set_var, shared_clear_var, isMainThread, hens, hm, Ne.symm hne]
  · exact ⟨by simp [shared_set_formatter], by simp [shared_clear_formatter],
      by simp [shared_set_formatter]⟩

/-- C2 witness: the routing law evaluated with home thread 0, instance 5,
calling thread 2. -/
theorem c2_store_routing_witness :
    (runOps initState [COp.setV 0 0 ['x'] ['1']]).mainThread = some 0 ∧
    (shared_set_var 5 2 ['k'] ['v'] (runOps initState [COp.setV 0 0 ['x'] ['1']])).tvars 2 ['k'] =
      some ['v'] := by
  refine ⟨by decide, ?_⟩
  exact ((c2_store_routing (runOps initState [COp.setV 0 0 ['x'] ['1']]) 0 5 2
    ['k'] ['v'] 0 0 (by decide)).2.1 (by decide)).1

/-- Registry well-formedness: entries are below the fresh counter and carry
pairwise distinct instance identifiers. -/
def RegInv (st : SysState) : Prop :=
  (∀ p ∈ st.reg, p.2 < st.nextCtx) ∧ (st.reg.map Prod.snd).Nodup

/-- What the Shared-context identity claim needs from the registry: names
that both resolve do not resolve to the same instance unless they are the
same name. -/
def RegWF (st : SysState) : Prop :=
  ∀ a b ca cb, lookupReg st.reg a = some ca → lookupReg st.reg b = some cb →
    a ≠ b → ca ≠ cb

theorem regInv_init : RegInv initState := by
  constructor <;> simp [initState]

theorem ensureMain_reg (t : Nat) (st : SysState) : (ensureMain t st).reg = st.reg := by
  unfold ensureMain
  cases st.mainThread <;> rfl

theorem ensureMain_nextCtx (t : Nat) (st : SysState) :
    (ensureMain t st).nextCtx = st.nextCtx := by
  unfold ensureMain
  cases st.mainThread <;> rfl

theorem regInv_iff_fields {st1 st2 : SysState} (hr : st1.reg = st2.reg)
    (hn : st1.nextCtx = st2.nextCtx) (h : RegInv st2) : RegInv st1 := by
  obtain ⟨h1, h2⟩ := h
  exact ⟨fun p hp => by rw [hn]; exact h1 p (by rw [← hr]; exact hp), by rw [hr]; exact h2⟩

theorem regInv_step {st : SysState} (h : RegInv st) (op : COp) : RegInv (stepOp st op) := by
  obtain ⟨h1, h2⟩ := h
  cases op with
  | setV c t n v =>
    refine regInv_iff_fields ?_ ?_ ⟨h1, h2⟩ <;>
      (simp only [stepOp, shared_set_var, isMainThread]
       split <;> first | rfl | simp [ensureMain_reg, ensureMain_nextCtx])
  | clearV c t n =>
    refine regInv_iff_fields ?_ ?_ ⟨h1, h2⟩ <;>
      (simp only [stepOp, shared_clear_var, isMainThread]
       split <;> first | rfl | simp [ensureMain_reg, ensureMain_nextCtx])
  | setF c t tag f => exact ⟨h1, h2⟩
  | clearF c t tag => exact ⟨h1, h2⟩
  | getCtx n =>
    show RegInv (get_context n st).2
    unfold get_context
    split
    · exact ⟨h1, h2⟩
    · refine ⟨?_, ?_⟩
      · intro p hp
        simp only [List.mem_cons] at hp
        rcases hp with rfl | hp
        · simp
        · have := h1 p hp
          simp
          omega
      · simp only [List.map_cons, List.nodup_cons]
        refine ⟨?_, h2⟩
        intro hc
        simp only [List.mem_map] at hc
        obtain ⟨p, hp, hpc⟩ := hc
        have := h1 p hp
        omega
  | removeCtx n =>
    show RegInv (remove_context n st)
    unfold remove_context
    refine ⟨?_, ?_⟩
    · intro p hp
      exact h1 p (List.mem_of_mem_filter hp)
    · exact List.Nodup.sublist (List.Sublist.map _ (List.filter_sublist _)) h2

theorem regInv_run (ops : List COp) : RegInv (runOps initState ops) := by
  have : ∀ st, RegInv st → RegInv (runOps st ops) := by
    induction ops with
    | nil => intro st h; exact h
    | cons op rest ih =>
      intro st h
      exact ih _ (regInv_step h op)
  exact this _ regInv_init

theorem regWF_of_regInv {st : SysState} (h : RegInv st) : RegWF st := by
  obtain ⟨h1, h2⟩ := h
  intro a b ca cb ha hb hab hcc
  unfold lookupReg at ha hb
  rcases hfa : st.reg.find? (fun p => p.1 = a) with _ | pa
  · rw [hfa] at ha; simp at ha
  rcases hfb : st.reg.find? (fun p => p.1 = b) with _ | pb
  · rw [hfb] at hb; simp at hb
  rw [hfa] at ha
  rw [hfb] at hb
  simp only [Option.some.injEq] at ha hb
  have hma : pa ∈ st.reg := List.mem_of_find?_eq_some hfa
  have hmb : pb ∈ st.reg := List.mem_of_find?_eq_some hfb
  have hpa : pa.1 = a := by simpa using List.find?_some hfa
  have hpb : pb.1 = b := by simpa using List.find?_some hfb
  have hne : pa ≠ pb := by
    intro hc
    rw [hc, hpb] at hpa
    exact hab hpa.symm
  have := List.inj_on_of_nodup_map h2 hma hmb
  rw [← ha, ← hb] at hcc
  exact hne (this hcc)

/-- A sequence of set_var/clear_var operations all issued on instance c by
the recorded home thread m leaves the main thread, the shadow maps and
every other instance's global store untouched. -/
theorem homeVarOps_frame {st : SysState} {m c : Nat} (hm : st.mainThread = some m)
    (ops : List COp)
    (hops : ∀ op ∈ ops, (∃ n v, op = COp.setV c m n v) ∨ ∃ n, op = COp.clearV c m n) :
    (runOps st ops).mainThread = some m ∧
    (∀ c2, c2 ≠ c → (runOps st ops).gvars c2 = st.gvars c2) ∧
    (runOps st ops).tvars = st.tvars := by
  induction ops generalizing st with
  | nil => exact ⟨hm, fun _ _ => rfl, rfl⟩
  | cons op rest ih =>
    have hens := ensureMain_of_some hm
    have hb : (isMainThread m st).1 = true := by
      simp [isMainThread, hens, hm]
    have hstep : (stepOp st op).mainThread = some m ∧
        (∀ c2, c2 ≠ c → (stepOp st op).gvars c2 = st.gvars c2) ∧
        (stepOp st op).tvars = st.tvars := by
      rcases hops op (by simp) with ⟨n, v, rfl⟩ | ⟨n, rfl⟩
      · refine ⟨?_, ?_, ?_⟩
        · simp [stepOp, shared_set_var, isMainThread, hens, hm]
        · intro c2 hc2
          funext n0
          simp [stepOp, shared_set_var, isMainThread, hens, hm, hc2]
        · simp [stepOp, shared_set_var, isMainThread, hens, hm]
      · refine ⟨?_, ?_, ?_⟩
        · simp [stepOp, shared_clear_var, isMainThread, hens, hm]
        · intro c2 hc2
          funext n0
          simp [stepOp, shared_clear_var, isMainThread, hens, hm, hc2]
        · simp [stepOp, shared_clear_var, isMainThread, hens, hm]
    obtain ⟨h1, h2, h3⟩ := hstep
    have hrest := ih h1 (fun op2 hop2 => hops op2 (by simp [hop2]))
    refine ⟨hrest.1, ?_, ?_⟩
    · intro c2 hc2
      rw [show runOps st (op :: rest) = runOps (stepOp st op) rest from by simp [runOps]]
      rw [hrest.2.1 c2 hc2, h2 c2 hc2]
    · rw [show runOps st (op :: rest) = runOps (stepOp st op) rest from by simp [runOps]]
      rw [hrest.2.2, h3]

/-- C3 counterexample: the registry hands out instance 0 for name a and
instance 1 for name b; thread 0 touches instance 0 first (becoming the
process-wide main thread); then thread 1 performs set_var of k on
instance 0.  Because thread_variables_ is a single static thread_local
map shared by all shared_context instances, instance 1 suddenly reports
has_var k from thread 1 (and find_var sees the value), although no
operation was ever performed on instance 1. -/
theorem c3_counterexample :
    (get_context ['a'] initState).1 = 0 ∧
    (get_context ['b'] (get_context ['a'] initState).2).1 = 1 ∧
    shared_has_var 1 1 ['k']
      (runOps initState [COp.getCtx ['a'], COp.getCtx ['b'], COp.setV 0 0 ['k'] ['v']]) =
      false ∧
    shared_has_var 1 1 ['k']
      (runOps initState
        [COp.getCtx ['a'], COp.getCtx ['b'], COp.setV 0 0 ['k'] ['v'],
         COp.setV 0 1 ['k'] ['w']]) = true ∧
    shared_find_var 1 1 ['k']
      (runOps initState
        [COp.getCtx ['a'], COp.getCtx ['b'], COp.setV 0 0 ['k'] ['v'],
         COp.setV 0 1 ['k'] ['w']]) = some ['w'] := by
  decide

/-- C3 (amended): registry instances under different names are distinct
(the registry lock plus fresh construction guarantee it), and
set_var/clear_var sequences issued on one instance by the home thread
never change has_var, find_var or format on another instance, observed
from any thread.  But writes from a non-home thread land in the single
process-wide thread_local map shared by all Shared contexts, so they are
immediately visible through every other instance on that same thread: a
variable set by a non-home thread does not live in a store of exactly one
context. -/
theorem c3_cross_context :
    (∀ ops, RegWF (runOps initState ops)) ∧
    (∀ (st : SysState) (m : Nat) (a b : Str) (c c2 : Nat) (ops : List COp),
       RegWF st → lookupReg st.reg a = some c → lookupReg st.reg b = some c2 → a ≠ b →
       st.mainThread = some m →
       (∀ op ∈ ops, (∃ n v, op = COp.setV c m n v) ∨ ∃ n, op = COp.clearV c m n) →
       (∀ t2 name,
          shared_has_var c2 t2 name (runOps st ops) = shared_has_var c2 t2 name st ∧
          shared_find_var c2 t2 name (runOps st ops) = shared_find_var c2 t2 name st) ∧
       (∀ (D : Type) (lib : CStdLib D) (t2 : Nat) (tpl : Str) (args : List Arg),
          formatModel lib (fun nm => shared_find_var c2 t2 nm (runOps st ops)) tpl args =
          formatModel lib (fun nm => shared_find_var c2 t2 nm st) tpl args)) ∧
    (∀ (st : SysState) (m c c2 t : Nat) (n v : Str),
       st.mainThread = some m → t ≠ m →
       shared_has_var c2 t n (shared_set_var c t n v st) = true) := by
  refine ⟨?_, ?_, ?_⟩
  · intro ops
    exact regWF_of_regInv (regInv_run ops)
  · intro st m a b c c2 ops hwf hla hlb hab hm hops
    have hcc : c ≠ c2 := hwf a b c c2 hla hlb hab
    obtain ⟨hmt, hg, ht⟩ := homeVarOps_frame hm ops hops
    have hg2 := hg c2 (fun hc => hcc hc.symm)
    have hfv : ∀ t2 name,
        shared_find_var c2 t2 name (runOps st ops) = shared_find_var c2 t2 name st := by
      intro t2 name
      unfold shared_find_var
      rw [ht, hg2]
    constructor
    · intro t2 name
      refine ⟨?_, hfv t2 name⟩
      unfold shared_has_var
      rw [ht, hg2]
    · intro D lib t2 tpl args
      have : (fun nm => shared_find_var c2 t2 nm (runOps st ops)) =
          (fun nm => shared_find_var c2 t2 nm st) := by
        funext nm
        exact hfv t2 nm
      rw [this]
  · intro st m c c2 t n v hm hne
    have hens := ensureMain_of_some hm
    have hb : (isMainThread t st).1 = false := by
      simp only [isMainThread, hens, hm]
      simpa using fun hc : m = t => hne hc.symm
    unfold shared_set_var
    rw [show isMainThread t st = ((isMainThread t st).1, (isMainThread t st).2) from rfl]
    rw [hb]
    simp only [Bool.false_eq_true, if_false]
    unfold shared_has_var
    simp [isMainThread, hens]

/-- C3 witness: the shadow-leak law evaluated at a state where thread 0 is
the home thread: thread 1 writing k through instance 0 makes instance 1
report the variable on thread 1. -/
theorem c3_cross_context_witness :
    (runOps initState
      [COp.getCtx ['a'], COp.getCtx ['b'], COp.setV 0 0 ['k'] ['v']]).mainThread = some 0 ∧
    (1 : Nat) ≠ 0 ∧
    shared_has_var 1 1 ['k']
      (shared_set_var 0 1 ['k'] ['w']
        (runOps initState
          [COp.getCtx ['a'], COp.getCtx ['b'], COp.setV 0 0 ['k'] ['v']])) = true := by
  refine ⟨by decide, by decide, ?_⟩
  exact c3_cross_context.2.2
    (runOps initState [COp.getCtx ['a'], COp.getCtx ['b'], COp.setV 0 0 ['k'] ['v']])
    0 0 1 1 ['k'] ['w'] (by decide) (by decide)

theorem take_append_len {a b : Str} {k : Nat} : (a ++ b).take (a.length + k) = a ++ b.take k := by
  induction a with
  | nil => simp
  | cons c t ih => simp [Nat.succ_add, ih]

theorem substrE_append {a b : Str} {x y : Nat} :
    substrE (a ++ b) (a.length + x) (a.length + y) = substrE b x y := by
  unfold substrE
  rw [take_append_len, drop_append_len]

theorem strFind_past_end {pat s : Str} {pos : Nat} (h : s.length ≤ pos) :
    strFind pat s pos = none := by
  have : s.drop pos = [] := List.drop_eq_nil_of_le h
  simp [strFind, this, findAux]

/-- Plain unfolding of simpleLoop. -/
theorem simpleLoop_eq (ph : Char) (pt v s : Str) (pos : Nat) :
    simpleLoop ph pt v s pos =
      match strFind (ph :: pt) s pos with
      | none => s
      | some q =>
        simpleLoop ph pt v (s.take q ++ v ++ s.drop (q + (ph :: pt).length)) (q + v.length) := by
  rw [simpleLoop]
  cases hf : strFind (ph :: pt) s pos <;> simp [hf]

/-- Plain unfolding of specLoop. -/
theorem specLoop_eq (rend : Str → Str) (ph : Char) (pt s : Str) (pos : Nat) :
    specLoop rend ph pt s pos =
      match strFind (ph :: pt) s pos with
      | none => s
      | some q =>
        match strFind [rb] s q with
        | none => s
        | some e =>
          specLoop rend ph pt
            (s.take q ++ rend (substrE s (q + (ph :: pt).length) e) ++ s.drop (e + 1))
            (q + (rend (substrE s (q + (ph :: pt).length) e)).length) := by
  rw [specLoop]
  split
  · rename_i hf
    rw [hf]
  · rename_i q hf
    split
    · rename_i he
      rw [hf]
      simp only [he]
    · rename_i e he
      rw [hf]
      simp only [he]

/-- Plain unfolding of pass2. -/
theorem pass2_eq {D : Type} (lib : CStdLib D) (fv : Str → Option Str) (s : Str) (pos : Nat) :
    pass2 lib fv s pos =
      match strFind [lb] s pos with
      | none => s
      | some q =>
        match strFind [rb] s q with
        | none => s
        | some e =>
          match substrE s (q + 1) e with
          | [] => pass2 lib fv s (e + 1)
          | c :: _ =>
            if isDigitC c then pass2 lib fv s (e + 1)
            else
              match fv (splitNameSpec (substrE s (q + 1) e)).1 with
              | some value =>
                pass2 lib fv
                  (s.take q ++ pass2Val lib value (substrE s (q + 1) e) ++ s.drop (e + 1))
                  (q + (pass2Val lib value (substrE s (q + 1) e)).length)
              | none => pass2 lib fv s (e + 1) := by
  rw [pass2]
  split
  · rename_i hf
    rw [hf]
  · rename_i q hf
    split
    · rename_i he
      rw [hf]
      simp only [he]
    · rename_i e he
      rw [hf]
      simp only [he]

/-- The loops never look left of their position: running on a ++ b at a
position past a behaves as running on b alone, with a prepended. -/
theorem simpleLoop_offset (ph : Char) (pt v : Str) (b : Str) (k : Nat) (a : Str) :
    simpleLoop ph pt v (a ++ b) (a.length + k) = a ++ simpleLoop ph pt v b k := by
  generalize hn : b.length - k = n
  induction n using Nat.strong_induction_on generalizing b k with
  | _ n ih =>
    rw [simpleLoop_eq (s := a ++ b), simpleLoop_eq (s := b)]
    rw [strFind_append]
    cases hf : strFind (ph :: pt) b k with
    | none => simp
    | some q =>
      obtain ⟨hkq, hqb, _⟩ := strFind_bounds (by simp) hf
      simp only [Option.map_some']
      have h1 : q + a.length = a.length + q := Nat.add_comm _ _
      have h2 : (a ++ b).take (a.length + q) = a ++ b.take q := take_append_len
      have h3 : a.length + q + (ph :: pt).length = a.length + (q + (ph :: pt).length) := by omega
      have h4 : (a ++ b).drop (a.length + (q + (ph :: pt).length)) =
          b.drop (q + (ph :: pt).length) := drop_append_len
      rw [h1, h2, h3, h4]
      have h5 : a ++ b.take q ++ v ++ b.drop (q + (ph :: pt).length) =
          a ++ (b.take q ++ v ++ b.drop (q + (ph :: pt).length)) := by
        simp [List.append_assoc]
      have h6 : a.length + q + v.length = a.length + (q + v.length) := by omega
      rw [h5, h6]
      have hm : (b.take q ++ v ++ b.drop (q + (ph :: pt).length)).length - (q + v.length) < n := by
        simp only [List.length_append, List.length_take, List.length_drop]
        have : (ph :: pt).length = pt.length + 1 := rfl
        omega
      exact ih _ hm _ _ rfl

theorem specLoop_offset (rend : Str → Str) (ph : Char) (pt : Str) (b : Str) (k : Nat) (a : Str) :
    specLoop rend ph pt (a ++ b) (a.length + k) = a ++ specLoop rend ph pt b k := by
  generalize hn : b.length - k = n
  induction n using Nat.strong_induction_on generalizing b k with
  | _ n ih =>
    rw [specLoop_eq (s := a ++ b), specLoop_eq (s := b)]
    rw [strFind_append]
    cases hf : strFind (ph :: pt) b k with
    | none => simp
    | some q =>
      obtain ⟨hkq, hqb, _⟩ := strFind_bounds (by simp) hf
      simp only [Option.map_some']
      have h1 : q + a.length = a.length + q := Nat.add_comm _ _
      rw [h1, strFind_append (k := q)]
      cases he : strFind [rb] b q with
      | none => simp
      | some e =>
        obtain ⟨hqe, heb, _⟩ := strFind_bounds (by simp) he
        simp only [Option.map_some']
        have h3 : a.length + q + (ph :: pt).length = a.length + (q + (ph :: pt).length) := by
          omega
        have h4 : substrE (a ++ b) (a.length + (q + (ph :: pt).length)) (e + a.length) =
            substrE b (q + (ph :: pt).length) e := by
          have : e + a.length = a.length + e := Nat.add_comm _ _
          rw [this, substrE_append]
        have h5 : (a ++ b).take (a.length + q) = a ++ b.take q := take_append_len
        have h6 : e + a.length + 1 = a.length + (e + 1) := by omega
        have h7 : (a ++ b).drop (a.length + (e + 1)) = b.drop (e + 1) := drop_append_len
        rw [h3, h4, h5, h6, h7]
        have h8 : a ++ b.take q ++ rend (substrE b (q + (ph :: pt).length) e) ++ b.drop (e + 1) =
            a ++ (b.take q ++ rend (substrE b (q + (ph :: pt).length) e) ++ b.drop (e + 1)) := by
          simp [List.append_assoc]
        have h9 : a.length + q + (rend (substrE b (q + (ph :: pt).length) e)).length =
            a.length + (q + (rend (substrE b (q + (ph :: pt).length) e)).length) := by omega
        rw [h8, h9]
        have hm : (b.take q ++ rend (substrE b (q + (ph :: pt).length) e) ++
            b.drop (e + 1)).length -
            (q + (rend (substrE b (q + (ph :: pt).length) e)).length) < n := by
          simp only [List.length_append, List.length_take, List.length_drop]
          omega
        exact ih _ hm _ _ rfl

theorem pass2_offset {D : Type} (lib : CStdLib D) (fv : Str → Option Str) (b : Str) (k : Nat)
    (a : Str) : pass2 lib fv (a ++ b) (a.length + k) = a ++ pass2 lib fv b k := by
  generalize hn : b.length - k = n
  induction n using Nat.strong_induction_on generalizing b k with
  | _ n ih =>
    rw [pass2_eq (s := a ++ b), pass2_eq (s := b)]
    rw [strFind_append]
    cases hf : strFind [lb] b k with
    | none => simp
    | some q =>
      obtain ⟨hkq, hqb, _⟩ := strFind_bounds (by simp) hf
      simp only [Option.map_some']
      have h1 : q + a.length = a.length + q := Nat.add_comm _ _
      rw [h1, strFind_append (k := q)]
      cases he : strFind [rb] b q with
      | none => simp
      | some e =>
        obtain ⟨hqe, heb, _⟩ := strFind_bounds (by simp) he
        simp only [Option.map_some']
        have h3 : a.length + q + 1 = a.length + (q + 1) := by omega
        have h4 : substrE (a ++ b) (a.length + (q + 1)) (e + a.length) =
            substrE b (q + 1) e := by
          have : e + a.length = a.length + e := Nat.add_comm _ _
          rw [this, substrE_append]
        rw [h3, h4]
        have he1 : e + a.length + 1 = a.length + (e + 1) := by omega
        cases hc : substrE b (q + 1) e with
        | nil =>
          rw [he1]
          exact ih (b.length - (e + 1)) (by omega) b (e + 1) rfl
        | cons c rest =>
          by_cases hd : isDigitC c
          · simp only [hd, if_true]
            rw [he1]
            exact ih (b.length - (e + 1)) (by omega) b (e + 1) rfl
          · simp only [hd, Bool.false_eq_true, if_false]
            cases hv : fv (splitNameSpec (c :: rest)).1 with
            | none =>
              simp only [hv]
              rw [he1]
              exact ih (b.length - (e + 1)) (by omega) b (e + 1) rfl
            | some value =>
              simp only [hv]
              have h5 : (a ++ b).take (a.length + q) = a ++ b.take q := take_append_len
              have h7 : (a ++ b).drop (a.length + (e + 1)) = b.drop (e + 1) := drop_append_len
              rw [h5, he1, h7]
              set w := pass2Val lib value (c :: rest) with hw
              have h8 : a ++ b.take q ++ w ++ b.drop (e + 1) =
                  a ++ (b.take q ++ w ++ b.drop (e + 1)) := by
                simp [List.append_assoc]
              have h9 : a.length + q + w.length = a.length + (q + w.length) := by omega
              rw [h8, h9]
              have hm : (b.take q ++ w ++ b.drop (e + 1)).length - (q + w.length) < n := by
                simp only [List.length_append, List.length_take, List.length_drop]
                omega
              exact ih _ hm _ _ rfl

/-- With a single argument and the template consisting of exactly the bare
placeholder of index 0, pass 1 returns the argument's default rendering
(whatever braces it contains), and the whole format run is pass 2 on that
inserted text. -/
theorem pass1_single (v : Str) (r : Str → Str) : pass1 [(v, r)] ['{', '0', '}'] = v := by
  unfold pass1
  have henum : (([(v, r)] : List Arg)).enum = [(0, (v, r))] := rfl
  rw [henum]
  simp only [List.foldl_cons, List.foldl_nil]
  unfold pass1Arg
  have hdr : decRepr 0 = ['0'] := rfl
  rw [hdr]
  have h1 : specLoop r lb (['0'] ++ [colon]) ['{', '0', '}'] 0 = ['{', '0', '}'] := by
    rw [specLoop_eq]
    have hn : strFind (lb :: (['0'] ++ [colon])) ['{', '0', '}'] 0 = none := by decide
    rw [hn]
  rw [h1, simpleLoop_eq]
  have h2 : strFind (lb :: (['0'] ++ [rb])) ['{', '0', '}'] 0 = some 0 := by decide
  rw [h2]
  have h3 : List.take 0 ['{', '0', '}'] ++ v ++
      List.drop (0 + (lb :: (['0'] ++ [rb])).length) ['{', '0', '}'] = v := by
    simp
  show simpleLoop lb (['0'] ++ [rb]) v
      (List.take 0 ['{', '0', '}'] ++ v ++
        List.drop (0 + (lb :: (['0'] ++ [rb])).length) ['{', '0', '}']) (0 + v.length) = v
  rw [h3, simpleLoop_eq, strFind_past_end (by omega)]

theorem format_single_pos {D : Type} (lib : CStdLib D) (fv : Str → Option Str) (v : Str)
    (r : Str → Str) : formatModel lib fv ['{', '0', '}'] [(v, r)] = pass2 lib fv v 0 := by
  unfold formatModel
  rw [pass1_single]

/-- Pass 2 on a string that is exactly one well-formed named placeholder
whose name the context defines, with no spec: the value is substituted. -/
theorem pass2_single_name {D : Type} (lib : CStdLib D) (fv : Str → Option Str) (nm val : Str)
    (hne : nm ≠ []) (hbf : ∀ c ∈ nm, c ≠ lb ∧ c ≠ rb ∧ c ≠ colon)
    (hd : ∀ d, nm.head? = some d → isDigitC d = false)
    (hfv : fv nm = some val) :
    pass2 lib fv (lb :: (nm ++ [rb])) 0 = val := by
  obtain ⟨c, rest, rfl⟩ : ∃ c rest, nm = c :: rest := by
    cases nm with
    | nil => exact absurd rfl hne
    | cons c rest => exact ⟨c, rest, rfl⟩
  have hdc : isDigitC c = false := hd c rfl
  have hlb : strFind [lb] (lb :: (c :: rest ++ [rb])) 0 = some 0 := by
    have := strFind_first_char (c := lb) (a := []) (b := c :: rest ++ [rb]) (by simp)
    simpa using this
  have hrb : strFind [rb] (lb :: (c :: rest ++ [rb])) 0 = some ((c :: rest).length + 1) := by
    have hmem : ∀ x ∈ lb :: c :: rest, x ≠ rb := by
      intro x hx
      rcases List.mem_cons.mp hx with rfl | hx
      · decide
      · exact (hbf x hx).2.1
    have := strFind_first_char (c := rb) (a := lb :: c :: rest) (b := []) hmem
    simpa [Nat.add_comm] using this
  have hcontent : substrE (lb :: (c :: rest ++ [rb])) (0 + 1) ((c :: rest).length + 1) =
      c :: rest := by
    unfold substrE
    have h0 : (c :: rest ++ [rb]).take ((c :: rest).length + 0) =
        c :: rest ++ ([rb]).take 0 := take_append_len
    simp only [List.take_nil, Nat.add_zero, List.append_nil] at h0
    rw [show (lb :: (c :: rest ++ [rb])).take ((c :: rest).length + 1) =
      lb :: (c :: rest ++ [rb]).take ((c :: rest).length) from rfl]
    rw [h0]
    simp
  have hsplit : splitNameSpec (c :: rest) = (c :: rest, []) := by
    unfold splitNameSpec
    have : strFind [colon] (c :: rest) 0 = none := by
      apply strFind_none_of_not_mem
      intro x hx
      exact (hbf x hx).2.2
    rw [this]
  have hval : pass2Val lib val (c :: rest) = val := by
    unfold pass2Val
    rw [hsplit]
    simp
  rw [pass2_eq, hlb]
  simp only [hrb, hcontent, hdc, Bool.false_eq_true, if_false, hsplit, hfv, hval]
  have hsplice : (lb :: (c :: rest ++ [rb])).take 0 ++ val ++
      (lb :: (c :: rest ++ [rb])).drop ((c :: rest).length + 1 + 1) = val := by
    have hlen : (lb :: (c :: rest ++ [rb])).length = (c :: rest).length + 1 + 1 := by simp
    simp [List.drop_eq_nil_of_le, hlen.le]
  rw [hsplice, pass2_eq, strFind_past_end (by omega)]

/-- C4 counterexample: the single argument of format renders to the text of
a named placeholder; the claim demands that inserted text survive verbatim
even when the context defines the name, but pass 2 rescans it and
substitutes the context value: the output is Bob, not the inserted
placeholder text. -/
theorem c4_counterexample :
    formatModel libUnit
      (fun s => if s = ['n', 'a', 'm', 'e'] then some ['B', 'o', 'b'] else none)
      ['{', '0', '}'] [argStr ['{', 'n', 'a', 'm', 'e', '}']] = ['B', 'o', 'b'] ∧
    formatModel libUnit
      (fun s => if s = ['n', 'a', 'm', 'e'] then some ['B', 'o', 'b'] else none)
      ['{', '0', '}'] [argStr ['{', 'n', 'a', 'm', 'e', '}']] ≠
      ['{', 'n', 'a', 'm', 'e', '}'] := by
  have h1 := format_single_pos libUnit
    (fun s => if s = ['n', 'a', 'm', 'e'] then some ['B', 'o', 'b'] else none)
    ['{', 'n', 'a', 'm', 'e', '}']
    (fun sp => apply_string_formatting ['{', 'n', 'a', 'm', 'e', '}'] sp)
  have h2 := pass2_single_name libUnit
    (fun s => if s = ['n', 'a', 'm', 'e'] then some ['B', 'o', 'b'] else none)
    ['n', 'a', 'm', 'e'] ['B', 'o', 'b'] (by decide) (by decide) (by decide) (by decide)
  have h3 : formatModel libUnit
      (fun s => if s = ['n', 'a', 'm', 'e'] then some ['B', 'o', 'b'] else none)
      ['{', '0', '}'] [argStr ['{', 'n', 'a', 'm', 'e', '}']] = ['B', 'o', 'b'] := by
    rw [show (argStr ['{', 'n', 'a', 'm', 'e', '}'] : Arg) =
      (['{', 'n', 'a', 'm', 'e', '}'],
        fun sp => apply_string_formatting ['{', 'n', 'a', 'm', 'e', '}'] sp) from rfl]
    rw [h1]
    rw [show (['{', 'n', 'a', 'm', 'e', '}'] : Str) =
      lb :: (['n', 'a', 'm', 'e'] ++ [rb]) from rfl]
    exact h2
  exact ⟨h3, by rw [h3]; decide⟩

/-- C4 (amended): pass 2 does rescan text inserted by pass 1: with template
consisting of the bare positional placeholder of index 0, the whole run is
pass 2 applied to the argument's rendered value, and when that value is a
well-formed named placeholder whose name the context defines (no spec),
the context value is substituted into the output instead of the inserted
text surviving verbatim. -/
theorem c4_pass2_rescans {D : Type} (lib : CStdLib D) (fv : Str → Option Str) (nm val : Str)
    (r : Str → Str) (hne : nm ≠ []) (hbf : ∀ c ∈ nm, c ≠ lb ∧ c ≠ rb ∧ c ≠ colon)
    (hd : ∀ d, nm.head? = some d → isDigitC d = false) (hfv : fv nm = some val) :
    formatModel lib fv ['{', '0', '}'] [(lb :: (nm ++ [rb]), r)] = val ∧
    (∀ (v2 : Str) (r2 : Str → Str),
       formatModel lib fv ['{', '0', '}'] [(v2, r2)] = pass2 lib fv v2 0) := by
  constructor
  · rw [format_single_pos]
    exact pass2_single_name lib fv nm val hne hbf hd hfv
  · intro v2 r2
    exact format_single_pos lib fv v2 r2

/-- C4 witness: the amended law evaluated at name user, value Ann. -/
theorem c4_pass2_rescans_witness :
    (['u', 's', 'e', 'r'] : Str) ≠ [] ∧
    formatModel libUnit (fun s => if s = ['u', 's', 'e', 'r'] then some ['A', 'n', 'n'] else none)
      ['{', '0', '}'] [(lb :: (['u', 's', 'e', 'r'] ++ [rb]), fun _ => [])] = ['A', 'n', 'n'] := by
  refine ⟨by decide, ?_⟩
  exact (c4_pass2_rescans libUnit
    (fun s => if s = ['u', 's', 'e', 'r'] then some ['A', 'n', 'n'] else none)
    ['u', 's', 'e', 'r'] ['A', 'n', 'n'] (fun _ => [])
    (by decide) (by decide) (by decide) (by decide)).1

/-- C7 counterexample: in the template consisting of the in-range bare
placeholder of index 0 followed by the out-of-range placeholder of index 5
(two arguments), argument 0 renders to a text containing an unterminated
brace opening of index 1.  Pass 1 for argument 1 then finds that opening,
takes everything up to the first closing brace (the closing brace of the
out-of-range placeholder) as its spec, and replaces the whole span: the
out-of-range placeholder does not survive; the output is just the second
argument's rendering, with no error. -/
theorem c7_counterexample :
    formatModel libUnit (fun _ => none) ['{', '0', '}', '{', '5', '}']
      [argStr ['{', '1', ':', 'x'], argStr ['A']] = ['A'] ∧
    strFind ['{', '5', '}'] ['A'] 0 = none := by
  refine ⟨?_, by decide⟩
  unfold formatModel
  have e1 : pass1 [argStr ['{', '1', ':', 'x'], argStr ['A']] ['{', '0', '}', '{', '5', '}'] =
      ['A'] := by
    unfold pass1
    have henum : ([argStr ['{', '1', ':', 'x'], argStr ['A']]).enum =
        [(0, argStr ['{', '1', ':', 'x']), (1, argStr ['A'])] := rfl
    rw [henum]
    simp only [List.foldl_cons, List.foldl_nil]
    have p0 : pass1Arg 0 (argStr ['{', '1', ':', 'x']) ['{', '0', '}', '{', '5', '}'] =
        ['{', '1', ':', 'x', '{', '5', '}'] := by
      unfold pass1Arg
      have hs : specLoop (argStr ['{', '1', ':', 'x']).2 lb (decRepr 0 ++ [colon])
          ['{', '0', '}', '{', '5', '}'] 0 = ['{', '0', '}', '{', '5', '}'] := by
        rw [specLoop_eq]
        have hn : strFind (lb :: (decRepr 0 ++ [colon])) ['{', '0', '}', '{', '5', '}'] 0 =
            none := by decide
        rw [hn]
      rw [hs, simpleLoop_eq]
      have h1 : strFind (lb :: (decRepr 0 ++ [rb])) ['{', '0', '}', '{', '5', '}'] 0 =
          some 0 := by decide
      rw [h1]
      show simpleLoop lb (decRepr 0 ++ [rb]) (argStr ['{', '1', ':', 'x']).1
          ['{', '1', ':', 'x', '{', '5', '}'] 4 = ['{', '1', ':', 'x', '{', '5', '}']
      rw [simpleLoop_eq]
      have h2 : strFind (lb :: (decRepr 0 ++ [rb])) ['{', '1', ':', 'x', '{', '5', '}'] 4 =
          none := by decide
      rw [h2]
    rw [p0]
    unfold pass1Arg
    have hs1 : specLoop (argStr ['A']).2 lb (decRepr 1 ++ [colon])
        ['{', '1', ':', 'x', '{', '5', '}'] 0 = ['A'] := by
      rw [specLoop_eq]
      have h3 : strFind (lb :: (decRepr 1 ++ [colon])) ['{', '1', ':', 'x', '{', '5', '}'] 0 =
          some 0 := by decide
      have h4 : strFind [rb] ['{', '1', ':', 'x', '{', '5', '}'] 0 = some 6 := by decide
      simp only [h3, h4]
      show specLoop (argStr ['A']).2 lb (decRepr 1 ++ [colon]) ['A'] 1 = ['A']
      rw [specLoop_eq]
      have h5 : strFind (lb :: (decRepr 1 ++ [colon])) ['A'] 1 = none := by decide
      rw [h5]
    rw [hs1, simpleLoop_eq]
    have h6 : strFind (lb :: (decRepr 1 ++ [rb])) ['A'] 0 = none := by decide
    rw [h6]
  rw [e1, pass2_eq]
  have h7 : strFind [lb] ['A'] 0 = none := by decide
  rw [h7]

/-- Template tokens: brace-free literal text, a positional placeholder with
optional spec, or a named placeholder with optional spec. -/
inductive Tok where
  | lit : Str → Tok
  | pos : Nat → Option Str → Tok
  | nam : Str → Option Str → Tok

/-- The character string of one token. -/
def tokStr : Tok → Str
  | .lit s => s
  | .pos i none => lb :: (decRepr i ++ [rb])
  | .pos i (some sp) => lb :: (decRepr i ++ colon :: (sp ++ [rb]))
  | .nam s none => lb :: (s ++ [rb])
  | .nam s (some sp) => lb :: (s ++ colon :: (sp ++ [rb]))

/-- The template string of a token list. -/
def render (ts : List Tok) : Str := (ts.map tokStr).join

/-- Brace-freedom of a string. -/
def bf (s : Str) : Prop := ∀ c ∈ s, c ≠ lb ∧ c ≠ rb

/-- Well-formedness of a token: literals and specs are brace-free; names
are brace-free, nonempty, not digit-leading, and colon-free. -/
def wfTok : Tok → Prop
  | .lit s => bf s
  | .pos _ osp => ∀ sp, osp = some sp → bf sp
  | .nam s osp => bf s ∧ s ≠ [] ∧ (∀ d, s.head? = some d → isDigitC d = false) ∧
      (∀ c ∈ s, c ≠ colon) ∧ ∀ sp, osp = some sp → bf sp

/-- Well-formedness of an argument: its default rendering and all its spec
renderings are brace-free. -/
def wfArg (a : Arg) : Prop := bf a.1 ∧ ∀ sp, bf (a.2 sp)

theorem digit_not_brace {c : Char} (h : isDigitC c = true) : c ≠ lb ∧ c ≠ rb := by
  constructor <;> rintro rfl <;> simp [isDigitC, lb, rb] at h

theorem decRepr_bf (i : Nat) : ∀ c ∈ decRepr i, c ≠ lb ∧ c ≠ rb :=
  fun c hc => digit_not_brace (decRepr_all_digits i c hc)

/-- A well-formed token is either a brace-free literal or an opening brace,
a brace-free interior, and a closing brace. -/
theorem tok_interior (t : Tok) (hw : wfTok t) :
    (∃ s, t = .lit s ∧ tokStr t = s ∧ bf s) ∨
    (∃ mid, tokStr t = lb :: (mid ++ [rb]) ∧ ∀ c ∈ mid, c ≠ lb ∧ c ≠ rb) := by
  cases t with
  | lit s => exact Or.inl ⟨s, rfl, rfl, hw⟩
  | pos i osp =>
    right
    cases osp with
    | none => exact ⟨decRepr i, rfl, decRepr_bf i⟩
    | some sp =>
      refine ⟨decRepr i ++ colon :: sp, ?_, ?_⟩
      · show lb :: (decRepr i ++ colon :: (sp ++ [rb])) = _
        simp
      · intro c hc
        simp only [List.mem_append, List.mem_cons] at hc
        rcases hc with hc | rfl | hc
        · exact decRepr_bf i c hc
        · constructor <;> decide
        · exact hw sp rfl c hc
  | nam s osp =>
    right
    obtain ⟨hbf, _, _, _, hsp⟩ := hw
    cases osp with
    | none => exact ⟨s, rfl, hbf⟩
    | some sp =>
      refine ⟨s ++ colon :: sp, ?_, ?_⟩
      · show lb :: (s ++ colon :: (sp ++ [rb])) = _
        simp
      · intro c hc
        simp only [List.mem_append, List.mem_cons] at hc
        rcases hc with hc | rfl | hc
        · exact hbf c hc
        · constructor <;> decide
        · exact hsp sp rfl c hc

/-- The head of a pattern that starts a prefix must appear at the matched
position. -/
theorem prefix_drop_head {p : Str} {c : Char} (hp : p.head? = some c) {A B : Str} {q : Nat}
    (hq : q < A.length) (h : p <+: (A ++ B).drop q) : A.get ⟨q, hq⟩ = c := by
  obtain ⟨p0, pt, rfl⟩ : ∃ p0 pt, p = p0 :: pt := by
    cases p with
    | nil => simp at hp
    | cons p0 pt => exact ⟨p0, pt, rfl⟩
  simp only [List.head?_cons, Option.some.injEq] at hp
  subst hp
  have hq2 : q < (A ++ B).length := by simp; omega
  rw [List.drop_eq_getElem_cons hq2] at h
  rw [List.cons_prefix_cons] at h
  have : (A ++ B)[q] = A[q] := List.getElem_append_left hq
  rw [this] at h
  exact h.1.symm

/-- Inside a well-formed token string, the opening brace occurs only at
position zero. -/
theorem tok_lb_at_zero {t : Tok} (hw : wfTok t) {q : Nat} (hq : q < (tokStr t).length)
    (h : (tokStr t).get ⟨q, hq⟩ = lb) : q = 0 := by
  have h2 : (tokStr t)[q]? = some lb := by
    rw [List.getElem?_eq_getElem hq]
    exact congrArg some h
  rcases tok_interior t hw with ⟨s, _, hts, hbf⟩ | ⟨mid, hts, hmid⟩
  · exfalso
    rw [hts] at h2
    have hm : lb ∈ s := by
      rcases List.getElem?_eq_some.mp h2 with ⟨hlt, hg⟩
      exact hg ▸ List.getElem_mem hlt
    exact (hbf lb hm).1 rfl
  · by_contra hne
    obtain ⟨q0, rfl⟩ : ∃ q0, q = q0 + 1 := ⟨q - 1, by omega⟩
    rw [hts, List.getElem?_cons_succ] at h2
    have hm : lb ∈ mid ++ [rb] := by
      rcases List.getElem?_eq_some.mp h2 with ⟨hlt, hg⟩
      exact hg ▸ List.getElem_mem hlt
    rcases List.mem_append.mp hm with hm | hm
    · exact (hmid lb hm).1 rfl
    · simp only [List.mem_singleton] at hm
      exact absurd hm (by decide)

/-- The head of a prefix is the head of the larger string. -/
theorem prefix_head_eq {p l : Str} (h : p <+: l) {c : Char} (hp : p.head? = some c) :
    l.head? = some c := by
  obtain ⟨t, rfl⟩ := h
  cases p with
  | nil => simp at hp
  | cons x pt =>
    simp only [List.head?_cons, Option.some.injEq] at hp
    simp [hp]

/-- The spec carrying pattern of index i never occurs with its start inside
the string of a well-formed token that is not the spec carrying positional
placeholder of index i. -/
theorem pat_no_occ_spec {i : Nat} {t : Tok} (hw : wfTok t)
    (hnt : ∀ sp, t ≠ Tok.pos i (some sp)) (B : Str) :
    ∀ q, q < (tokStr t).length → ¬ (lb :: (decRepr i ++ [colon])) <+: ((tokStr t ++ B).drop q) := by
  intro q hq hpre
  have hq0 : q = 0 := tok_lb_at_zero hw hq (prefix_drop_head List.head?_cons hq hpre)
  subst hq0
  simp only [List.drop_zero] at hpre
  cases t with
  | lit s =>
    obtain ⟨c, cs, rfl⟩ : ∃ c cs, s = c :: cs := by
      cases s with
      | nil => simp [tokStr] at hq
      | cons c cs => exact ⟨c, cs, rfl⟩
    rw [show tokStr (Tok.lit (c :: cs)) = c :: cs from rfl] at hpre
    rw [List.cons_append, List.cons_prefix_cons] at hpre
    exact (hw lb (hpre.1 ▸ List.mem_cons_self c cs)).1 rfl
  | pos j osp =>
    cases osp with
    | none =>
      rw [show tokStr (Tok.pos j none) = lb :: (decRepr j ++ [rb]) from rfl] at hpre
      rw [List.cons_append, List.cons_prefix_cons] at hpre
      have hpre2 : (decRepr i ++ colon :: ([] : Str)) <+: (decRepr j ++ rb :: B) := by
        simpa using hpre.2
      obtain ⟨_, hcd, _⟩ := decRepr_boundary (by decide) (by decide) hpre2
      exact absurd hcd (by decide)
    | some sp =>
      rw [show tokStr (Tok.pos j (some sp)) =
        lb :: (decRepr j ++ colon :: (sp ++ [rb])) from rfl] at hpre
      rw [List.cons_append, List.cons_prefix_cons] at hpre
      have hpre2 : (decRepr i ++ colon :: ([] : Str)) <+:
          (decRepr j ++ colon :: (sp ++ [rb] ++ B)) := by
        simpa [List.append_assoc] using hpre.2
      obtain ⟨hij, _, _⟩ := decRepr_boundary (by decide) (by decide) hpre2
      exact hnt sp (by rw [hij])
  | nam s osp =>
    obtain ⟨hbf, hne, hds, hcol, hsp⟩ := hw
    obtain ⟨d, s2, rfl⟩ : ∃ d s2, s = d :: s2 := by
      cases s with
      | nil => exact absurd rfl hne
      | cons d s2 => exact ⟨d, s2, rfl⟩
    have hdd : isDigitC d = false := hds d rfl
    obtain ⟨e, es, hdec, hdig⟩ := decRepr_head_digit i
    have h2 : ((d :: s2) ++ (match osp with
        | some sp => colon :: (sp ++ [rb])
        | none => [rb]) ++ B).head? = some e := by
      apply prefix_head_eq (c := e)
      · cases osp with
        | none =>
          rw [show tokStr (Tok.nam (d :: s2) none) = lb :: ((d :: s2) ++ [rb]) from rfl] at hpre
          rw [List.cons_append, List.cons_prefix_cons] at hpre
          simpa [List.append_assoc] using hpre.2
        | some sp =>
          rw [show tokStr (Tok.nam (d :: s2) (some sp)) =
            lb :: ((d :: s2) ++ colon :: (sp ++ [rb])) from rfl] at hpre
          rw [List.cons_append, List.cons_prefix_cons] at hpre
          simpa [List.append_assoc] using hpre.2
      · rw [hdec]
        rfl
    simp only [List.cons_append, List.head?_cons, Option.some.injEq] at h2
    rw [h2] at hdd
    rw [hdd] at hdig
    simp at hdig

/-- The bare pattern of index i never occurs with its start inside the
string of a well-formed token that is not the bare positional placeholder
of index i. -/
theorem pat_no_occ_bare {i : Nat} {t : Tok} (hw : wfTok t) (hnt : t ≠ Tok.pos i none)
    (B : Str) :
    ∀ q, q < (tokStr t).length → ¬ (lb :: (decRepr i ++ [rb])) <+: ((tokStr t ++ B).drop q) := by
  intro q hq hpre
  have hq0 : q = 0 := tok_lb_at_zero hw hq (prefix_drop_head List.head?_cons hq hpre)
  subst hq0
  simp only [List.drop_zero] at hpre
  cases t with
  | lit s =>
    obtain ⟨c, cs, rfl⟩ : ∃ c cs, s = c :: cs := by
      cases s with
      | nil => simp [tokStr] at hq
      | cons c cs => exact ⟨c, cs, rfl⟩
    rw [show tokStr (Tok.lit (c :: cs)) = c :: cs from rfl] at hpre
    rw [List.cons_append, List.cons_prefix_cons] at hpre
    exact (hw lb (hpre.1 ▸ List.mem_cons_self c cs)).1 rfl
  | pos j osp =>
    cases osp with
    | none =>
      rw [show tokStr (Tok.pos j none) = lb :: (decRepr j ++ [rb]) from rfl] at hpre
      rw [List.cons_append, List.cons_prefix_cons] at hpre
      have hpre2 : (decRepr i ++ rb :: ([] : Str)) <+: (decRepr j ++ rb :: B) := by
        simpa using hpre.2
      obtain ⟨hij, _, _⟩ := decRepr_boundary (by decide) (by decide) hpre2
      exact hnt (by rw [hij])
    | some sp =>
      rw [show tokStr (Tok.pos j (some sp)) =
        lb :: (decRepr j ++ colon :: (sp ++ [rb])) from rfl] at hpre
      rw [List.cons_append, List.cons_prefix_cons] at hpre
      have hpre2 : (decRepr i ++ rb :: ([] : Str)) <+:
          (decRepr j ++ colon :: (sp ++ [rb] ++ B)) := by
        simpa [List.append_assoc] using hpre.2
      obtain ⟨_, hcd, _⟩ := decRepr_boundary (by decide) (by decide) hpre2
      exact absurd hcd (by decide)
  | nam s osp =>
    obtain ⟨hbf, hne, hds, hcol, hsp⟩ := hw
    obtain ⟨d, s2, rfl⟩ : ∃ d s2, s = d :: s2 := by
      cases s with
      | nil => exact absurd rfl hne
      | cons d s2 => exact ⟨d, s2, rfl⟩
    have hdd : isDigitC d = false := hds d rfl
    obtain ⟨e, es, hdec, hdig⟩ := decRepr_head_digit i
    have h2 : ((d :: s2) ++ (match osp with
        | some sp => colon :: (sp ++ [rb])
        | none => [rb]) ++ B).head? = some e := by
      apply prefix_head_eq (c := e)
      · cases osp with
        | none =>
          rw [show tokStr (Tok.nam (d :: s2) none) = lb :: ((d :: s2) ++ [rb]) from rfl] at hpre
          rw [List.cons_append, List.cons_prefix_cons] at hpre
          simpa [List.append_assoc] using hpre.2
        | some sp =>
          rw [show tokStr (Tok.nam (d :: s2) (some sp)) =
            lb :: ((d :: s2) ++ colon :: (sp ++ [rb])) from rfl] at hpre
          rw [List.cons_append, List.cons_prefix_cons] at hpre
          simpa [List.append_assoc] using hpre.2
      · rw [hdec]
        rfl
    simp only [List.cons_append, List.head?_cons, Option.some.injEq] at h2
    rw [h2] at hdd
    rw [hdd] at hdig
    simp at hdig

theorem simpleLoop_skip {ph : Char} {pt v A B : Str}
    (hno : ∀ q, q < A.length → ¬ (ph :: pt) <+: ((A ++ B).drop q)) :
    simpleLoop ph pt v (A ++ B) 0 = A ++ simpleLoop ph pt v B 0 := by
  rw [simpleLoop_eq (s := A ++ B), simpleLoop_eq (s := B)]
  rw [strFind_append_of_no_occ (by simp) hno]
  cases hf : strFind (ph :: pt) B 0 with
  | none => simp
  | some j =>
    simp only [Option.map_some']
    have h1 : j + A.length = A.length + j := Nat.add_comm _ _
    rw [h1]
    have h2 : (A ++ B).take (A.length + j) = A ++ B.take j := take_append_len
    have h3 : A.length + j + (ph :: pt).length = A.length + (j + (ph :: pt).length) := by omega
    have h4 : (A ++ B).drop (A.length + (j + (ph :: pt).length)) =
        B.drop (j + (ph :: pt).length) := drop_append_len
    rw [h2, h3, h4]
    have h5 : A ++ B.take j ++ v ++ B.drop (j + (ph :: pt).length) =
        A ++ (B.take j ++ v ++ B.drop (j + (ph :: pt).length)) := by
      simp [List.append_assoc]
    have h6 : A.length + j + v.length = A.length + (j + v.length) := by omega
    rw [h5, h6]
    exact simpleLoop_offset ph pt v _ _ A

theorem specLoop_skip {rend : Str → Str} {ph : Char} {pt A B : Str}
    (hno : ∀ q, q < A.length → ¬ (ph :: pt) <+: ((A ++ B).drop q)) :
    specLoop rend ph pt (A ++ B) 0 = A ++ specLoop rend ph pt B 0 := by
  rw [specLoop_eq (s := A ++ B), specLoop_eq (s := B)]
  rw [strFind_append_of_no_occ (by simp) hno]
  cases hf : strFind (ph :: pt) B 0 with
  | none => simp
  | some j =>
    simp only [Option.map_some']
    have h1 : j + A.length = A.length + j := Nat.add_comm _ _
    rw [h1, strFind_append (k := j)]
    cases he : strFind [rb] B j with
    | none => simp
    | some e =>
      simp only [Option.map_some']
      have h3 : A.length + j + (ph :: pt).length = A.length + (j + (ph :: pt).length) := by
        omega
      have h4 : substrE (A ++ B) (A.length + (j + (ph :: pt).length)) (e + A.length) =
          substrE B (j + (ph :: pt).length) e := by
        have : e + A.length = A.length + e := Nat.add_comm _ _
        rw [this, substrE_append]
      have h5 : (A ++ B).take (A.length + j) = A ++ B.take j := take_append_len
      have h6 : e + A.length + 1 = A.length + (e + 1) := by omega
      have h7 : (A ++ B).drop (A.length + (e + 1)) = B.drop (e + 1) := drop_append_len
      rw [h3, h4, h5, h6, h7]
      have h8 : A ++ B.take j ++ rend (substrE B (j + (ph :: pt).length) e) ++ B.drop (e + 1) =
          A ++ (B.take j ++ rend (substrE B (j + (ph :: pt).length) e) ++ B.drop (e + 1)) := by
        simp [List.append_assoc]
      have h9 : A.length + j + (rend (substrE B (j + (ph :: pt).length) e)).length =
          A.length + (j + (rend (substrE B (j + (ph :: pt).length) e)).length) := by omega
      rw [h8, h9]
      exact specLoop_offset rend ph pt _ _ A

theorem specLoop_target {rend : Str → Str} {i : Nat} {sp R : Str} (hsp : bf sp) :
    specLoop rend lb (decRepr i ++ [colon]) (tokStr (Tok.pos i (some sp)) ++ R) 0 =
      rend sp ++ specLoop rend lb (decRepr i ++ [colon]) R 0 := by
  have hA : tokStr (Tok.pos i (some sp)) ++ R =
      (lb :: (decRepr i ++ [colon])) ++ (sp ++ ([rb] ++ R)) := by
    show lb :: (decRepr i ++ colon :: (sp ++ [rb])) ++ R = _
    simp
  rw [specLoop_eq]
  have hfind : strFind (lb :: (decRepr i ++ [colon]))
      (tokStr (Tok.pos i (some sp)) ++ R) 0 = some 0 := by
    apply strFind_of_prefix (by simp) (Nat.le_refl 0)
    · rw [List.drop_zero, hA]
      exact ⟨sp ++ ([rb] ++ R), rfl⟩
    · intro k h1 h2
      omega
  rw [hfind]
  have hrb : strFind [rb] (tokStr (Tok.pos i (some sp)) ++ R) 0 =
      some ((decRepr i).length + sp.length + 2) := by
    have hB : tokStr (Tok.pos i (some sp)) ++ R =
        (lb :: (decRepr i ++ colon :: sp)) ++ rb :: R := by
      show lb :: (decRepr i ++ colon :: (sp ++ [rb])) ++ R = _
      simp
    rw [hB]
    have hlen : (lb :: (decRepr i ++ colon :: sp)).length =
        (decRepr i).length + sp.length + 2 := by
      simp
      omega
    rw [← hlen]
    apply strFind_first_char
    intro x hx
    simp only [List.mem_cons, List.mem_append] at hx
    rcases hx with rfl | hx | rfl | hx
    · decide
    · exact (decRepr_bf i x hx).2
    · decide
    · exact (hsp x hx).2
  simp only [hrb]
  have hspec : substrE (tokStr (Tok.pos i (some sp)) ++ R)
      (0 + (lb :: (decRepr i ++ [colon])).length) ((decRepr i).length + sp.length + 2) =
      sp := by
    rw [hA]
    have hplen : (lb :: (decRepr i ++ [colon])).length = (decRepr i).length + 2 := by
      simp
    rw [hplen]
    have h1 : (0 : Nat) + ((decRepr i).length + 2) =
        (lb :: (decRepr i ++ [colon])).length + 0 := by
      simp
    have h2 : (decRepr i).length + sp.length + 2 =
        (lb :: (decRepr i ++ [colon])).length + sp.length := by
      simp
      omega
    rw [h1, h2, substrE_append]
    unfold substrE
    have : (sp ++ ([rb] ++ R)).take (sp.length + 0) = sp ++ ([rb] ++ R).take 0 :=
      take_append_len
    simpa using this
  rw [hspec]
  have hlen2 : (tokStr (Tok.pos i (some sp))).length =
      (decRepr i).length + sp.length + 3 := by
    show (lb :: (decRepr i ++ colon :: (sp ++ [rb]))).length = _
    simp
    omega
  have hidx : (decRepr i).length + sp.length + 2 + 1 =
      (tokStr (Tok.pos i (some sp))).length + 0 := by
    rw [hlen2]
  have hsplice : (tokStr (Tok.pos i (some sp)) ++ R).take 0 ++ rend sp ++
      (tokStr (Tok.pos i (some sp)) ++ R).drop ((decRepr i).length + sp.length + 2 + 1) =
      rend sp ++ R := by
    rw [hidx, drop_append_len]
    simp
  rw [hsplice]
  have hpos : (0 : Nat) + (rend sp).length = (rend sp).length + 0 := by omega
  rw [hpos]
  exact specLoop_offset rend lb (decRepr i ++ [colon]) R 0 (rend sp)

theorem simpleLoop_target {v : Str} {i : Nat} {R : Str} :
    simpleLoop lb (decRepr i ++ [rb]) v (tokStr (Tok.pos i none) ++ R) 0 =
      v ++ simpleLoop lb (decRepr i ++ [rb]) v R 0 := by
  rw [simpleLoop_eq]
  have hfind : strFind (lb :: (decRepr i ++ [rb])) (tokStr (Tok.pos i none) ++ R) 0 =
      some 0 := by
    apply strFind_of_prefix (by simp) (Nat.le_refl 0)
    · rw [List.drop_zero]
      exact ⟨R, rfl⟩
    · intro k h1 h2
      omega
  rw [hfind]
  have hsplice : (tokStr (Tok.pos i none) ++ R).take 0 ++ v ++
      (tokStr (Tok.pos i none) ++ R).drop (0 + (lb :: (decRepr i ++ [rb])).length) = v ++ R := by
    have hlen : (0 : Nat) + (lb :: (decRepr i ++ [rb])).length =
        (tokStr (Tok.pos i none)).length + 0 := by
      simp [tokStr]
    rw [hlen, drop_append_len]
    simp
  show simpleLoop lb (decRepr i ++ [rb]) v
      ((tokStr (Tok.pos i none) ++ R).take 0 ++ v ++
        (tokStr (Tok.pos i none) ++ R).drop (0 + (lb :: (decRepr i ++ [rb])).length))
      (0 + v.length) = v ++ simpleLoop lb (decRepr i ++ [rb]) v R 0
  rw [hsplice]
  have hpos : (0 : Nat) + v.length = v.length + 0 := by omega
  rw [hpos]
  exact simpleLoop_offset lb (decRepr i ++ [rb]) v R 0 v

/-- The effect of pass 1's spec carrying loop for index i on tokens. -/
def specResolve (i : Nat) (rend : Str → Str) : Tok → Tok
  | .pos j (some sp) => if j = i then .lit (rend sp) else .pos j (some sp)
  | t => t

/-- The effect of pass 1's bare loop for index i on tokens. -/
def bareResolve (i : Nat) (v : Str) : Tok → Tok
  | .pos j none => if j = i then .lit v else .pos j none
  | t => t

theorem specResolve_self {i : Nat} {rend : Str → Str} {t : Tok}
    (h : ∀ sp, t ≠ Tok.pos i (some sp)) : specResolve i rend t = t := by
  cases t with
  | pos j osp =>
    cases osp with
    | none => rfl
    | some sp =>
      have : j ≠ i := fun hc => h sp (by rw [hc])
      simp [specResolve, this]
  | lit s => rfl
  | nam s osp => rfl

theorem bareResolve_self {i : Nat} {v : Str} {t : Tok} (h : t ≠ Tok.pos i none) :
    bareResolve i v t = t := by
  cases t with
  | pos j osp =>
    cases osp with
    | none =>
      have : j ≠ i := fun hc => h (by rw [hc])
      simp [bareResolve, this]
    | some sp => rfl
  | lit s => rfl
  | nam s osp => rfl

theorem render_nil : render [] = [] := rfl

theorem render_cons (t : Tok) (ts : List Tok) : render (t :: ts) = tokStr t ++ render ts := by
  simp [render]

theorem strFind_nil {pat : Str} (hp : pat ≠ []) {i : Nat} : strFind pat [] i = none := by
  cases pat with
  | nil => exact absurd rfl hp
  | cons c t => simp [strFind, findAux]

theorem specLoop_tokens {rend : Str → Str} {i : Nat} (ts : List Tok)
    (hw : ∀ t ∈ ts, wfTok t) :
    specLoop rend lb (decRepr i ++ [colon]) (render ts) 0 =
      render (ts.map (specResolve i rend)) := by
  induction ts with
  | nil =>
    rw [render_nil, specLoop_eq, strFind_nil (by simp)]
    rfl
  | cons t ts' ih =>
    have hwt : wfTok t := hw t (by simp)
    have hw' : ∀ u ∈ ts', wfTok u := fun u hu => hw u (by simp [hu])
    rw [render_cons]
    by_cases htgt : ∃ sp, t = Tok.pos i (some sp)
    · obtain ⟨sp, rfl⟩ := htgt
      have hsp : bf sp := hwt sp rfl
      rw [specLoop_target hsp, ih hw']
      rw [List.map_cons, render_cons]
      simp [specResolve, tokStr]
    · push_neg at htgt
      rw [specLoop_skip (pat_no_occ_spec hwt htgt _), ih hw']
      rw [List.map_cons, render_cons, specResolve_self htgt]

theorem simpleLoop_tokens {v : Str} {i : Nat} (ts : List Tok)
    (hw : ∀ t ∈ ts, wfTok t) :
    simpleLoop lb (decRepr i ++ [rb]) v (render ts) 0 =
      render (ts.map (bareResolve i v)) := by
  induction ts with
  | nil =>
    rw [render_nil, simpleLoop_eq, strFind_nil (by simp)]
    rfl
  | cons t ts' ih =>
    have hwt : wfTok t := hw t (by simp)
    have hw' : ∀ u ∈ ts', wfTok u := fun u hu => hw u (by simp [hu])
    rw [render_cons]
    by_cases htgt : t = Tok.pos i none
    · subst htgt
      rw [simpleLoop_target, ih hw']
      rw [List.map_cons, render_cons]
      simp [bareResolve, tokStr]
    · rw [simpleLoop_skip (pat_no_occ_bare hwt htgt _), ih hw']
      rw [List.map_cons, render_cons, bareResolve_self htgt]

/-- The combined effect of pass 1 on a token, when the remaining arguments
rest carry indices starting at k: in-range positional placeholders become
literals holding the matching rendering; everything else stays. -/
def resolveFrom (k : Nat) (rest : List Arg) : Tok → Tok
  | .pos j osp =>
      if j < k then .pos j osp
      else
        match rest[j - k]? with
        | some a =>
            match osp with
            | none => .lit a.1
            | some sp => .lit (a.2 sp)
        | none => .pos j osp
  | .lit s => .lit s
  | .nam s osp => .nam s osp

theorem wf_specResolve {i : Nat} {rend : Str → Str} (hrend : ∀ sp, bf (rend sp)) {t : Tok}
    (hw : wfTok t) : wfTok (specResolve i rend t) := by
  cases t with
  | pos j osp =>
    cases osp with
    | none => exact hw
    | some sp =>
      by_cases hji : j = i
      · simp only [specResolve, hji, if_true]
        exact hrend sp
      · simp only [specResolve, hji, if_false]
        exact hw
  | lit s => exact hw
  | nam s osp => exact hw

theorem wf_bareResolve {i : Nat} {v : Str} (hv : bf v) {t : Tok} (hw : wfTok t) :
    wfTok (bareResolve i v t) := by
  cases t with
  | pos j osp =>
    cases osp with
    | some sp => exact hw
    | none =>
      by_cases hji : j = i
      · simp only [bareResolve, hji, if_true]
        exact hv
      · simp only [bareResolve, hji, if_false]
        exact hw
  | lit s => exact hw
  | nam s osp => exact hw

theorem pass1Arg_tokens {i : Nat} {a : Arg} {ts : List Tok} (hw : ∀ t ∈ ts, wfTok t)
    (ha : wfArg a) :
    pass1Arg i a (render ts) =
      render ((ts.map (specResolve i a.2)).map (bareResolve i a.1)) := by
  unfold pass1Arg
  rw [specLoop_tokens ts hw]
  exact simpleLoop_tokens _ (by
    intro u hu
    obtain ⟨t0, ht0, rfl⟩ := List.mem_map.mp hu
    exact wf_specResolve ha.2 (hw t0 ht0))

theorem resolve_compose {k : Nat} {a : Arg} {rest : List Arg} (t : Tok) :
    resolveFrom (k + 1) rest (bareResolve k a.1 (specResolve k a.2 t)) =
      resolveFrom k (a :: rest) t := by
  cases t with
  | lit s => rfl
  | nam s osp => rfl
  | pos j osp =>
    by_cases hjk : j = k
    · subst hjk
      cases osp with
      | none => simp [specResolve, bareResolve, resolveFrom]
      | some sp => simp [specResolve, bareResolve, resolveFrom]
    · have h1 : specResolve k a.2 (Tok.pos j osp) = Tok.pos j osp :=
        specResolve_self (fun sp hc => by cases hc; exact hjk rfl)
      have h2 : bareResolve k a.1 (Tok.pos j osp) = Tok.pos j osp :=
        bareResolve_self (fun hc => by cases hc; exact hjk rfl)
      rw [h1, h2]
      rcases Nat.lt_or_ge j k with hlt | hge
      · simp only [resolveFrom]
        rw [if_pos (by omega), if_pos hlt]
      · have hgt : k < j := by omega
        simp only [resolveFrom]
        rw [if_neg (by omega), if_neg (by omega)]
        have hidx : j - k = (j - (k + 1)) + 1 := by omega
        rw [hidx, List.getElem?_cons_succ]

theorem resolveFrom_nil {k : Nat} (t : Tok) : resolveFrom k [] t = t := by
  cases t with
  | lit s => rfl
  | nam s osp => rfl
  | pos j osp =>
    simp only [resolveFrom]
    split
    · rfl
    · simp

theorem pass1_from (rest : List Arg) (k : Nat) (ts : List Tok) (hw : ∀ t ∈ ts, wfTok t)
    (ha : ∀ a ∈ rest, wfArg a) :
    (List.enumFrom k rest).foldl (fun acc p => pass1Arg p.1 p.2 acc) (render ts) =
      render (ts.map (resolveFrom k rest)) := by
  induction rest generalizing k ts with
  | nil =>
    simp only [List.enumFrom, List.foldl_nil]
    rw [show ts.map (resolveFrom k []) = ts.map id from
      List.map_congr_left (fun t _ => resolveFrom_nil t)]
    rw [List.map_id]
  | cons a rest' ih =>
    simp only [List.enumFrom, List.foldl_cons]
    rw [pass1Arg_tokens hw (ha a (by simp))]
    have hw2 : ∀ u ∈ (ts.map (specResolve k a.2)).map (bareResolve k a.1), wfTok u := by
      intro u hu
      obtain ⟨u1, hu1, rfl⟩ := List.mem_map.mp hu
      obtain ⟨t0, ht0, rfl⟩ := List.mem_map.mp hu1
      exact wf_bareResolve (ha a (by simp)).1 (wf_specResolve (ha a (by simp)).2 (hw t0 ht0))
    rw [ih (k + 1) _ hw2 (fun a2 ha2 => ha a2 (by simp [ha2]))]
    congr 1
    rw [List.map_map, List.map_map]
    apply List.map_congr_left
    intro t _
    simpa [Function.comp] using @resolve_compose k a rest' t

theorem pass1_tokens (args : List Arg) (ts : List Tok) (hw : ∀ t ∈ ts, wfTok t)
    (ha : ∀ a ∈ args, wfArg a) :
    pass1 args (render ts) = render (ts.map (resolveFrom 0 args)) := by
  unfold pass1
  have he : args.enum = List.enumFrom 0 args := rfl
  rw [he]
  exact pass1_from args 0 ts hw ha

theorem strFind_shift {pat s : Str} {k : Nat} (hp : pat ≠ [])
    (hno : ∀ q, q < k → ¬ pat <+: s.drop q) : strFind pat s 0 = strFind pat s k := by
  cases hf : strFind pat s k with
  | none =>
    cases hf0 : strFind pat s 0 with
    | none => rfl
    | some j =>
      obtain ⟨_, hpre, _⟩ := strFind_eq_some hf0
      rcases Nat.lt_or_ge j k with hlt | hge
      · exact absurd hpre (hno j hlt)
      · exact absurd hpre (strFind_eq_none hp hf j hge)
  | some j =>
    obtain ⟨hkj, hpre, hmin⟩ := strFind_eq_some hf
    apply strFind_of_prefix hp (Nat.zero_le j) hpre
    intro q _ hqj
    rcases Nat.lt_or_ge q k with hlt | hge
    · exact hno q hlt
    · exact hmin q hge hqj

theorem pass2_eq_pos {D : Type} {lib : CStdLib D} {fv : Str → Option Str} {s : Str} {k : Nat}
    (h : strFind [lb] s 0 = strFind [lb] s k) : pass2 lib fv s 0 = pass2 lib fv s k := by
  rw [pass2_eq lib fv s 0, pass2_eq lib fv s k, h]

theorem pass2_lit {D : Type} {lib : CStdLib D} {fv : Str → Option Str} {s B : Str}
    (hbf : bf s) : pass2 lib fv (s ++ B) 0 = s ++ pass2 lib fv B 0 := by
  have hno : ∀ q, q < s.length → ¬ [lb] <+: ((s ++ B).drop q) := by
    intro q hq hpre
    have := prefix_drop_head List.head?_cons hq hpre
    have hm : s.get ⟨q, hq⟩ ∈ s := by
      rcases List.getElem?_eq_some.mp (List.getElem?_eq_getElem hq) with ⟨h1, _⟩
      exact List.getElem_mem hq
    exact (hbf _ hm).1 this
  rw [pass2_eq_pos (strFind_shift (by simp) hno)]
  have : s.length = s.length + 0 := rfl
  rw [this]
  exact pass2_offset lib fv B 0 s

theorem substrE_head_interior {mid X : Str} :
    substrE (lb :: (mid ++ X)) 1 (mid.length + 1) = mid := by
  unfold substrE
  have h1 : (lb :: (mid ++ X)).take (mid.length + 1) = lb :: mid := by
    rw [show (lb :: (mid ++ X)).take (mid.length + 1) = lb :: (mid ++ X).take mid.length
      from rfl]
    have : (mid ++ X).take (mid.length + 0) = mid ++ X.take 0 := take_append_len
    simpa using this
  rw [h1]
  simp

/-- The two strFind results of pass 2 on a well-formed nonliteral token:
the opening brace at position zero and the closing brace at the end of the
token. -/
theorem pass2_tok_finds {mid B : Str} (hmid : ∀ c ∈ mid, c ≠ lb ∧ c ≠ rb) :
    strFind [lb] ((lb :: (mid ++ [rb])) ++ B) 0 = some 0 ∧
    strFind [rb] ((lb :: (mid ++ [rb])) ++ B) 0 = some (mid.length + 1) ∧
    substrE ((lb :: (mid ++ [rb])) ++ B) (0 + 1) (mid.length + 1) = mid ∧
    ((lb :: (mid ++ [rb])) ++ B).drop (mid.length + 1 + 1) = B := by
  have hshape : (lb :: (mid ++ [rb])) ++ B = (lb :: mid) ++ rb :: B := by
    simp
  refine ⟨?_, ?_, ?_, ?_⟩
  · have := strFind_first_char (c := lb) (a := []) (b := (mid ++ [rb]) ++ B) (by simp)
    simpa using this
  · rw [hshape]
    have hm2 : ∀ x ∈ lb :: mid, x ≠ rb := by
      intro x hx
      rcases List.mem_cons.mp hx with rfl | hx
      · decide
      · exact (hmid x hx).2
    have := strFind_first_char (c := rb) (a := lb :: mid) (b := B) hm2
    simpa [Nat.add_comm] using this
  · have hshape2 : (lb :: (mid ++ [rb])) ++ B = lb :: (mid ++ ([rb] ++ B)) := by
      simp
    rw [hshape2]
    simpa using @substrE_head_interior mid ([rb] ++ B)
  · have : mid.length + 1 + 1 = (lb :: (mid ++ [rb])).length + 0 := by
      simp
    rw [this, drop_append_len]
    rfl

/-- The content of a named placeholder token. -/
def namContent (s : Str) (osp : Option Str) : Str :=
  match osp with
  | some sp => s ++ colon :: sp
  | none => s

/-- The replacement pass 2 emits for one token: literals and positional
placeholders (whatever their index) pass through verbatim; named
placeholders are looked up and substituted when found. -/
def emit2 {D : Type} (lib : CStdLib D) (fv : Str → Option Str) : Tok → Str
  | .lit s => s
  | .pos i osp => tokStr (.pos i osp)
  | .nam s osp =>
      match fv s with
      | some val => pass2Val lib val (namContent s osp)
      | none => tokStr (.nam s osp)

theorem pass2_interior_of_wf {t : Tok} (hw : wfTok t) {mid : Str}
    (hts : tokStr t = lb :: (mid ++ [rb])) : ∀ c ∈ mid, c ≠ lb ∧ c ≠ rb := by
  rcases tok_interior t hw with ⟨s, _, hts2, hbf⟩ | ⟨mid2, hts2, hmid2⟩
  · exfalso
    rw [hts] at hts2
    exact (hbf lb (by rw [← hts2]; simp)).1 rfl
  · rw [hts] at hts2
    have : mid ++ [rb] = mid2 ++ [rb] := by
      simpa using hts2
    have hmm : mid = mid2 := by
      have := List.append_inj' this rfl
      exact this.1
    rw [hmm]
    exact hmid2

theorem pass2_skip_interior {D : Type} {lib : CStdLib D} {fv : Str → Option Str}
    {mid B : Str} (hmid : ∀ c ∈ mid, c ≠ lb ∧ c ≠ rb) {d : Char} {m2 : Str}
    (hcons : mid = d :: m2) (hdig : isDigitC d = true) :
    pass2 lib fv ((lb :: (mid ++ [rb])) ++ B) 0 =
      (lb :: (mid ++ [rb])) ++ pass2 lib fv B 0 := by
  obtain ⟨h1, h2, h3, h4⟩ := pass2_tok_finds (B := B) hmid
  rw [pass2_eq, h1]
  simp only [h2, h3]
  rw [hcons]
  simp only [hdig, if_true]
  rw [← hcons]
  show pass2 lib fv ((lb :: (mid ++ [rb])) ++ B) (mid.length + 1 + 1) = _
  have hidx : mid.length + 1 + 1 = (lb :: (mid ++ [rb])).length + 0 := by simp
  rw [hidx, pass2_offset]

theorem pass2_name_interior {D : Type} {lib : CStdLib D} {fv : Str → Option Str}
    {mid B s spec2 : Str} (hmid : ∀ c ∈ mid, c ≠ lb ∧ c ≠ rb) {d : Char} {m2 : Str}
    (hcons : mid = d :: m2) (hdig : isDigitC d = false)
    (hsplit : splitNameSpec mid = (s, spec2)) :
    pass2 lib fv ((lb :: (mid ++ [rb])) ++ B) 0 =
      (match fv s with
        | some val => pass2Val lib val mid
        | none => lb :: (mid ++ [rb])) ++ pass2 lib fv B 0 := by
  obtain ⟨h1, h2, h3, h4⟩ := pass2_tok_finds (B := B) hmid
  rw [pass2_eq, h1]
  simp only [h2, h3]
  rw [hcons]
  simp only [hdig, Bool.false_eq_true, if_false]
  rw [← hcons, hsplit]
  cases hfv : fv s with
  | none =>
    simp only [hfv]
    show pass2 lib fv ((lb :: (mid ++ [rb])) ++ B) (mid.length + 1 + 1) = _
    have hidx : mid.length + 1 + 1 = (lb :: (mid ++ [rb])).length + 0 := by simp
    rw [hidx, pass2_offset]
  | some val =>
    simp only [hfv]
    rw [h4]
    show pass2 lib fv (List.take 0 ((lb :: (mid ++ [rb])) ++ B) ++
        pass2Val lib val mid ++ B) (0 + (pass2Val lib val mid).length) = _
    rw [show List.take 0 ((lb :: (mid ++ [rb])) ++ B) ++ pass2Val lib val mid ++ B =
      pass2Val lib val mid ++ B from by simp]
    rw [show (0 : Nat) + (pass2Val lib val mid).length =
      (pass2Val lib val mid).length + 0 from by omega]
    rw [pass2_offset]

theorem pass2_tok_step {D : Type} {lib : CStdLib D} {fv : Str → Option Str} {t : Tok}
    (hw : wfTok t) (B : Str) :
    pass2 lib fv (tokStr t ++ B) 0 = emit2 lib fv t ++ pass2 lib fv B 0 := by
  cases t with
  | lit s => exact pass2_lit hw
  | pos i osp =>
    obtain ⟨d, es, hdec, hdig⟩ := decRepr_head_digit i
    cases osp with
    | none =>
      have hmid : ∀ c ∈ decRepr i, c ≠ lb ∧ c ≠ rb := decRepr_bf i
      have hstep := @pass2_skip_interior D lib fv (decRepr i) B hmid d es hdec hdig
      rw [show tokStr (Tok.pos i none) = lb :: (decRepr i ++ [rb]) from rfl]
      rw [show emit2 lib fv (Tok.pos i none) = lb :: (decRepr i ++ [rb]) from rfl]
      exact hstep
    | some sp =>
      have hwsp : bf sp := hw sp rfl
      have hmid : ∀ c ∈ decRepr i ++ colon :: sp, c ≠ lb ∧ c ≠ rb := by
        intro c hc
        simp only [List.mem_append, List.mem_cons] at hc
        rcases hc with hc | rfl | hc
        · exact decRepr_bf i c hc
        · constructor <;> decide
        · exact hwsp c hc
      have hcons : decRepr i ++ colon :: sp = d :: (es ++ colon :: sp) := by
        rw [hdec]
        simp
      have hstep := @pass2_skip_interior D lib fv (decRepr i ++ colon :: sp) B hmid d (es ++ colon :: sp) hcons hdig
      rw [show tokStr (Tok.pos i (some sp)) =
        lb :: ((decRepr i ++ colon :: sp) ++ [rb]) from by
          show lb :: (decRepr i ++ colon :: (sp ++ [rb])) = _
          simp]
      rw [show emit2 lib fv (Tok.pos i (some sp)) = tokStr (Tok.pos i (some sp)) from rfl]
      rw [show tokStr (Tok.pos i (some sp)) =
        lb :: ((decRepr i ++ colon :: sp) ++ [rb]) from by
          show lb :: (decRepr i ++ colon :: (sp ++ [rb])) = _
          simp]
      exact hstep
  | nam s osp =>
    obtain ⟨hbf, hne, hds, hcol, hsp⟩ := hw
    obtain ⟨d, s2, hs⟩ : ∃ d s2, s = d :: s2 := by
      cases s with
      | nil => exact absurd rfl hne
      | cons d s2 => exact ⟨d, s2, rfl⟩
    have hdd : isDigitC d = false := hds d (by rw [hs]; rfl)
    cases osp with
    | none =>
      have hmid : ∀ c ∈ s, c ≠ lb ∧ c ≠ rb := hbf
      have hsplit : splitNameSpec s = (s, []) := by
        unfold splitNameSpec
        rw [strFind_none_of_not_mem hcol]
      have hstep := @pass2_name_interior D lib fv s B s [] hmid d s2 hs hdd hsplit
      rw [show tokStr (Tok.nam s none) = lb :: (s ++ [rb]) from rfl]
      rw [hstep]
      cases hfv : fv s with
      | none => simp [emit2, hfv, tokStr]
      | some val => simp [emit2, hfv, namContent]
    | some sp =>
      have hwsp : bf sp := hsp sp rfl
      have hmid : ∀ c ∈ s ++ colon :: sp, c ≠ lb ∧ c ≠ rb := by
        intro c hc
        simp only [List.mem_append, List.mem_cons] at hc
        rcases hc with hc | rfl | hc
        · exact hbf c hc
        · constructor <;> decide
        · exact hwsp c hc
      have hcons : s ++ colon :: sp = d :: (s2 ++ colon :: sp) := by
        rw [hs]
        simp
      have hsplit : splitNameSpec (s ++ colon :: sp) = (s, sp) := by
        unfold splitNameSpec
        rw [strFind_first_char hcol]
        have ht : (s ++ colon :: sp).take s.length = s := by
          have := take_append_len (a := s) (b := colon :: sp) (k := 0)
          simpa using this
        have hd2 : (s ++ colon :: sp).drop (s.length + 1) = sp := by
          have := drop_append_len (a := s) (b := colon :: sp) (k := 1)
          simpa using this
        show ((s ++ colon :: sp).take s.length, (s ++ colon :: sp).drop (s.length + 1)) = (s, sp)
        rw [ht, hd2]
      have hstep := @pass2_name_interior D lib fv (s ++ colon :: sp) B s sp hmid d (s2 ++ colon :: sp) hcons hdd hsplit
      rw [show tokStr (Tok.nam s (some sp)) = lb :: ((s ++ colon :: sp) ++ [rb]) from by
        show lb :: (s ++ colon :: (sp ++ [rb])) = _
        simp]
      rw [hstep]
      congr 1
      rw [show emit2 lib fv (Tok.nam s (some sp)) =
        (match fv s with
          | some val => pass2Val lib val (namContent s (some sp))
          | none => tokStr (Tok.nam s (some sp)) ) from rfl]
      cases fv s with
      | none =>
        show lb :: ((s ++ colon :: sp) ++ [rb]) = tokStr (Tok.nam s (some sp))
        show lb :: ((s ++ colon :: sp) ++ [rb]) = lb :: (s ++ colon :: (sp ++ [rb]))
        simp
      | some val => rfl

theorem pass2_nil {D : Type} (lib : CStdLib D) (fv : Str → Option Str) :
    pass2 lib fv [] 0 = [] := by
  rw [pass2_eq]
  rw [strFind_nil (by simp)]

theorem pass2_tokens {D : Type} (lib : CStdLib D) (fv : Str → Option Str) (ts : List Tok)
    (hw : ∀ t ∈ ts, wfTok t) :
    pass2 lib fv (render ts) 0 = (ts.map (emit2 lib fv)).join := by
  induction ts with
  | nil =>
    rw [render_nil, pass2_nil]
    rfl
  | cons t ts2 ih =>
    rw [render_cons, pass2_tok_step (hw t (by simp)) (render ts2)]
    rw [ih (fun u hu => hw u (by simp [hu]))]
    simp

theorem wf_resolveFrom {k : Nat} {args : List Arg} (ha : ∀ a ∈ args, wfArg a) {t : Tok}
    (hw : wfTok t) : wfTok (resolveFrom k args t) := by
  cases t with
  | lit s => exact hw
  | nam s osp => exact hw
  | pos j osp =>
    by_cases hjk : j < k
    · simp only [resolveFrom, if_pos hjk]
      exact hw
    · cases hidx : args[j - k]? with
      | none =>
        simp only [resolveFrom, if_neg hjk, hidx]
        exact hw
      | some a =>
        have hmem : a ∈ args := by
          obtain ⟨hlt, hget⟩ := List.getElem?_eq_some.mp hidx
          exact hget ▸ List.getElem_mem hlt
        cases osp with
        | none =>
          simp only [resolveFrom, if_neg hjk, hidx]
          exact (ha a hmem).1
        | some sp =>
          simp only [resolveFrom, if_neg hjk, hidx]
          exact (ha a hmem).2 sp

theorem bf_spaces (n : Nat) : bf (spacesC n) := by
  intro c hc
  have hce : c = ' ' := List.eq_of_mem_replicate hc
  subst hce
  constructor <;> decide

theorem truncStep_bf {v : Str} (hv : bf v) (m : Int) : bf (truncStep v m) := by
  unfold truncStep
  split
  · split
    · intro c hc
      exact hv c (List.take_subset _ _ hc)
    · intro c hc
      rcases List.mem_append.mp hc with h | h
      · exact hv c (List.take_subset _ _ h)
      · have hce : c = '.' := by
          simp only [List.mem_cons, List.not_mem_nil, or_false] at h
          rcases h with rfl | rfl | rfl <;> rfl
        subst hce
        constructor <;> decide
  · exact hv

theorem justifyStep_bf {p : Str} (hp : bf p) (l cj : Bool) (w : Int) :
    bf (justifyStep p l cj w) := by
  unfold justifyStep
  split
  · exact hp
  · split
    · intro c hc
      rcases List.mem_append.mp hc with h | h
      · exact hp c h
      · exact bf_spaces _ c h
    · split
      · intro c hc
        rcases List.mem_append.mp hc with h | h
        · rcases List.mem_append.mp h with h2 | h2
          · exact bf_spaces _ c h2
          · exact hp c h2
        · exact bf_spaces _ c h
      · intro c hc
        rcases List.mem_append.mp hc with h | h
        · exact bf_spaces _ c h
        · exact hp c h

theorem asf_bf {v : Str} (hv : bf v) (sp : Str) : bf (apply_string_formatting v sp) := by
  unfold apply_string_formatting
  split
  · exact hv
  · exact justifyStep_bf (truncStep_bf hv _) _ _ _

theorem wfArg_argStr {v : Str} (hv : bf v) : wfArg (argStr v) :=
  ⟨hv, fun sp => asf_bf hv sp⟩

/-- C7 (amended): for every template that is a concatenation of brace-free
literals and well-formed placeholders, and every argument list whose
rendered values (default and under any spec) are brace-free, every
positional placeholder whose index is at least the number of arguments
survives in the formatted output character-for-character unchanged (no
error is raised: the model is total).  The brace-freedom hypotheses are
necessary: c7_counterexample shows an argument whose spec-rendered value
contains braces making a later scan consume the out-of-range placeholder. -/
theorem c7_out_of_range {D : Type} (lib : CStdLib D) (fv : Str → Option Str)
    (ts : List Tok) (args : List Arg)
    (hw : ∀ t ∈ ts, wfTok t) (ha : ∀ a ∈ args, wfArg a)
    (i : Nat) (osp : Option Str) (hmem : Tok.pos i osp ∈ ts) (hge : args.length ≤ i) :
    ∃ pre post, formatModel lib fv (render ts) args =
      pre ++ tokStr (Tok.pos i osp) ++ post := by
  unfold formatModel
  rw [pass1_tokens args ts hw ha]
  rw [pass2_tokens lib fv _ (fun u hu => by
    obtain ⟨t0, ht0, rfl⟩ := List.mem_map.mp hu
    exact wf_resolveFrom ha (hw t0 ht0))]
  obtain ⟨l1, l2, hsplit⟩ := List.append_of_mem hmem
  have hres : resolveFrom 0 args (Tok.pos i osp) = Tok.pos i osp := by
    simp only [resolveFrom]
    rw [if_neg (by omega)]
    rw [List.getElem?_eq_none (by omega)]
  refine ⟨((l1.map (resolveFrom 0 args)).map (emit2 lib fv)).join,
          ((l2.map (resolveFrom 0 args)).map (emit2 lib fv)).join, ?_⟩
  rw [hsplit]
  simp only [List.map_append, List.map_cons, hres, List.join_append, List.join_cons,
    List.append_assoc]
  rfl

/-- C7 witness: the template A{5} with one brace-free argument keeps {5}
verbatim in the output. -/
theorem c7_out_of_range_witness :
    ∃ pre post, formatModel libUnit (fun _ => none)
        (render [Tok.lit ['A'], Tok.pos 5 none]) [argStr ['x']] =
      pre ++ tokStr (Tok.pos 5 none) ++ post :=
  c7_out_of_range libUnit (fun _ => none) [Tok.lit ['A'], Tok.pos 5 none] [argStr ['x']]
    (by
      intro t ht
      simp only [List.mem_cons, List.not_mem_nil, or_false] at ht
      rcases ht with rfl | rfl
      · intro c hc
        simp only [List.mem_cons, List.not_mem_nil, or_false] at hc
        subst hc
        constructor <;> decide
      · intro sp hsp
        exact nomatch hsp)
    (by
      intro a haa
      simp only [List.mem_cons, List.not_mem_nil, or_false] at haa
      subst haa
      exact wfArg_argStr (by
        intro c hc
        simp only [List.mem_cons, List.not_mem_nil, or_false] at hc
        subst hc
        constructor <;> decide))
    5 none (by simp) (by decide)
